import Mathlib

/-!
Verification of the `curd` curriculum-design tool against its specification.

The development shallowly embeds the Python sources:
* `src/model.py` — catalog data model, course selection, course-graph
  construction, cycle checking, reduction/closure, bottleneck extraction;
* `src/antichains.py` — the constraint scheduler (solver model construction).

Directed graphs (`networkx.DiGraph`) are embedded as a node list plus an edge
list; edge/node order is irrelevant to every property proved here, matching
the set semantics of the library.  The external `networkx` algorithms the
code calls (`chordless_cycles`, `transitive_reduction`, `transitive_closure`,
`immediate_dominators`) are embedded by their documented mathematical
contracts, which is what `src/model.py` relies on.  The `z3` solver is
embedded syntactically: the model built by the scheduler is a list of
assertions over integer variables, and a produced schedule corresponds to an
assignment satisfying every assertion (z3 only ever hands back models of the
asserted formulas).
-/

set_option linter.unusedSectionVars false

deriving instance DecidableEq for Except

namespace Curd

/-- A directed graph as stored by `networkx.DiGraph`: a set of nodes and a
set of directed edges.  We use lists; all properties below are invariant
under reordering and duplication, matching the Python set semantics. -/
structure Digraph (V : Type) where
  nodes : List V
  edges : List (V × V)
deriving DecidableEq

variable {V : Type} [DecidableEq V]

/-- Edge membership. -/
def Digraph.edge (g : Digraph V) (u v : V) : Prop := (u, v) ∈ g.edges

instance (g : Digraph V) (u v : V) : Decidable (g.edge u v) := by
  unfold Digraph.edge; infer_instance

/-- All vertices mentioned by the graph: declared nodes plus edge endpoints
(`networkx.DiGraph.add_edge` adds its endpoints as nodes). -/
def Digraph.verts (g : Digraph V) : List V :=
  (g.nodes ++ g.edges.map Prod.fst ++ g.edges.map Prod.snd).dedup

theorem Digraph.verts_nodup (g : Digraph V) : g.verts.Nodup := List.nodup_dedup _

theorem Digraph.edge_fst_mem_verts {g : Digraph V} {u v : V} (h : g.edge u v) :
    u ∈ g.verts := by
  unfold Digraph.verts
  rw [List.mem_dedup]
  refine List.mem_append.2 (Or.inl (List.mem_append.2 (Or.inr ?_)))
  exact List.mem_map.2 ⟨(u, v), h, rfl⟩

theorem Digraph.edge_snd_mem_verts {g : Digraph V} {u v : V} (h : g.edge u v) :
    v ∈ g.verts := by
  unfold Digraph.verts
  rw [List.mem_dedup]
  exact List.mem_append.2 (Or.inr (List.mem_map.2 ⟨(u, v), h, rfl⟩))

theorem Digraph.node_mem_verts {g : Digraph V} {u : V} (h : u ∈ g.nodes) :
    u ∈ g.verts := by
  unfold Digraph.verts
  rw [List.mem_dedup]
  exact List.mem_append.2 (Or.inl (List.mem_append.2 (Or.inl h)))

/-- `ChainTo g u l v` holds when there is a directed walk from `u` to `v`
whose intermediate vertices are exactly the list `l`, in order. -/
def ChainTo (g : Digraph V) : V → List V → V → Prop
  | u, [], v => g.edge u v
  | u, w :: l, v => g.edge u w ∧ ChainTo g w l v

instance instChainToDecidable (g : Digraph V) :
    ∀ (u : V) (l : List V) (v : V), Decidable (ChainTo g u l v)
  | _, [], _ => by unfold ChainTo; infer_instance
  | u, w :: l, v =>
    have : Decidable (ChainTo g w l v) := instChainToDecidable g w l v
    by unfold ChainTo; infer_instance

theorem chainTo_append {g : Digraph V} {u w v : V} {l₁ l₂ : List V}
    (h₁ : ChainTo g u l₁ w) (h₂ : ChainTo g w l₂ v) :
    ChainTo g u (l₁ ++ w :: l₂) v := by
  induction l₁ generalizing u with
  | nil => exact ⟨h₁, h₂⟩
  | cons x l ih => exact ⟨h₁.1, ih h₁.2⟩

theorem chainTo_split {g : Digraph V} {u w v : V} (l₁ l₂ : List V)
    (h : ChainTo g u (l₁ ++ w :: l₂) v) :
    ChainTo g u l₁ w ∧ ChainTo g w l₂ v := by
  induction l₁ generalizing u with
  | nil => exact ⟨h.1, h.2⟩
  | cons x l ih =>
    obtain ⟨he, hc⟩ := h
    obtain ⟨h₁, h₂⟩ := ih hc
    exact ⟨⟨he, h₁⟩, h₂⟩

theorem chainTo_start_mem_verts {g : Digraph V} {u v : V} {l : List V}
    (h : ChainTo g u l v) : u ∈ g.verts := by
  cases l with
  | nil => exact Digraph.edge_fst_mem_verts h
  | cons w l => exact Digraph.edge_fst_mem_verts h.1

theorem chainTo_end_mem_verts {g : Digraph V} {u v : V} {l : List V}
    (h : ChainTo g u l v) : v ∈ g.verts := by
  induction l generalizing u with
  | nil => exact Digraph.edge_snd_mem_verts h
  | cons w l ih => exact ih h.2

theorem chainTo_mem_verts {g : Digraph V} {u v : V} {l : List V}
    (h : ChainTo g u l v) : ∀ x ∈ l, x ∈ g.verts := by
  induction l generalizing u with
  | nil => intro x hx; cases hx
  | cons w l ih =>
    intro x hx
    rcases List.mem_cons.1 hx with rfl | hx
    · exact Digraph.edge_snd_mem_verts h.1
    · exact ih h.2 x hx

/-- A list that is not duplicate-free splits around a repeated element. -/
theorem exists_split_of_not_nodup {l : List V} (h : ¬ l.Nodup) :
    ∃ (l₁ : List V) (x : V) (l₂ l₃ : List V), l = l₁ ++ x :: (l₂ ++ x :: l₃) := by
  induction l with
  | nil => exact absurd List.nodup_nil h
  | cons a t ih =>
    by_cases ha : a ∈ t
    · obtain ⟨t₁, t₂, rfl⟩ := List.append_of_mem ha
      exact ⟨[], a, t₁, t₂, rfl⟩
    · have hnd : ¬ t.Nodup := fun hnd => h (List.nodup_cons.2 ⟨ha, hnd⟩)
      obtain ⟨l₁, x, l₂, l₃, rfl⟩ := ih hnd
      exact ⟨a :: l₁, x, l₂, l₃, rfl⟩

/-- Any walk can be shortened to a duplicate-free walk between the same
endpoints, using only intermediate vertices of the original walk. -/
theorem chainTo_shrink {g : Digraph V} {u v : V} {l : List V}
    (h : ChainTo g u l v) :
    ∃ l' : List V, l'.Nodup ∧ (∀ x ∈ l', x ∈ l) ∧ ChainTo g u l' v := by
  generalize hn : l.length = n
  induction n using Nat.strong_induction_on generalizing l with
  | _ n ih =>
    subst hn
    by_cases hnd : l.Nodup
    · exact ⟨l, hnd, fun x hx => hx, h⟩
    · obtain ⟨l₁, x, l₂, l₃, rfl⟩ := exists_split_of_not_nodup hnd
      have h₁ := chainTo_split l₁ (l₂ ++ x :: l₃) h
      have h₂ := chainTo_split l₂ l₃ h₁.2
      have hshort : ChainTo g u (l₁ ++ x :: l₃) v := chainTo_append h₁.1 h₂.2
      have hlen : (l₁ ++ x :: l₃).length < (l₁ ++ x :: (l₂ ++ x :: l₃)).length := by
        simp only [List.length_append, List.length_cons]
        omega
      obtain ⟨l', hnd', hsub, hc⟩ := ih _ hlen hshort rfl
      refine ⟨l', hnd', fun y hy => ?_, hc⟩
      have := hsub y hy
      simp only [List.mem_append, List.mem_cons] at this ⊢
      tauto

/-- Reachability by a directed path of length ≥ 1 (the relation underlying
`networkx` descendants / transitive closure). -/
def Reach (g : Digraph V) (u v : V) : Prop := ∃ l : List V, ChainTo g u l v

theorem Reach.single {g : Digraph V} {u v : V} (h : g.edge u v) : Reach g u v :=
  ⟨[], h⟩

theorem reach_trans {g : Digraph V} {u v w : V}
    (h₁ : Reach g u v) (h₂ : Reach g v w) : Reach g u w := by
  obtain ⟨l₁, hc₁⟩ := h₁
  obtain ⟨l₂, hc₂⟩ := h₂
  exact ⟨l₁ ++ v :: l₂, chainTo_append hc₁ hc₂⟩

theorem Reach.start_mem_verts {g : Digraph V} {u v : V} (h : Reach g u v) :
    u ∈ g.verts := by obtain ⟨l, hc⟩ := h; exact chainTo_start_mem_verts hc

theorem Reach.end_mem_verts {g : Digraph V} {u v : V} (h : Reach g u v) :
    v ∈ g.verts := by obtain ⟨l, hc⟩ := h; exact chainTo_end_mem_verts hc

/-- All duplicate-free lists over the vertex set: the candidate intermediate
vertex lists for simple paths (and the candidate simple cycles). -/
def simpleLists (g : Digraph V) : List (List V) :=
  g.verts.sublists.flatMap List.permutations'

theorem mem_simpleLists {g : Digraph V} {l : List V}
    (hnd : l.Nodup) (hsub : ∀ x ∈ l, x ∈ g.verts) : l ∈ simpleLists g := by
  have hsp : l.Subperm g.verts := hnd.subperm hsub
  obtain ⟨l', hperm, hsl⟩ := hsp
  refine List.mem_flatMap.2 ⟨l', List.mem_sublists.2 hsl, ?_⟩
  exact List.mem_permutations'.2 hperm.symm

theorem reach_iff_bounded {g : Digraph V} {u v : V} :
    Reach g u v ↔ ∃ l ∈ simpleLists g, ChainTo g u l v := by
  constructor
  · rintro ⟨l, hc⟩
    obtain ⟨l', hnd, hsub, hc'⟩ := chainTo_shrink hc
    exact ⟨l', mem_simpleLists hnd (fun x hx => chainTo_mem_verts hc x (hsub x hx)), hc'⟩
  · rintro ⟨l, _, hc⟩
    exact ⟨l, hc⟩

instance (g : Digraph V) (u v : V) : Decidable (Reach g u v) :=
  decidable_of_iff _ reach_iff_bounded.symm

/-- The graph contains a directed cycle: some vertex reaches itself. -/
def HasCycle (g : Digraph V) : Prop := ∃ v ∈ g.verts, Reach g v v

/-- The graph is acyclic: no vertex reaches itself. -/
def Acyclic (g : Digraph V) : Prop := ∀ v ∈ g.verts, ¬ Reach g v v

instance (g : Digraph V) : Decidable (HasCycle g) := by
  unfold HasCycle; infer_instance

instance (g : Digraph V) : Decidable (Acyclic g) := by
  unfold Acyclic; infer_instance

theorem not_hasCycle_iff_acyclic {g : Digraph V} : ¬ HasCycle g ↔ Acyclic g := by
  unfold HasCycle Acyclic
  push_neg
  rfl

theorem Acyclic.not_reach_self {g : Digraph V} (h : Acyclic g) (v : V) :
    ¬ Reach g v v := fun hr => h v hr.start_mem_verts hr

/-- A simple directed cycle: a nonempty duplicate-free vertex list
`x₀ … x_{k-1}` with edges `x₀→x₁→…→x_{k-1}→x₀`.  This is the shape of the
cycles enumerated by `networkx.chordless_cycles`. -/
def IsCycle (g : Digraph V) : List V → Prop
  | [] => False
  | x :: l => (x :: l).Nodup ∧ ChainTo g x l x

instance (g : Digraph V) : ∀ c : List V, Decidable (IsCycle g c)
  | [] => by unfold IsCycle; infer_instance
  | _ :: _ => by unfold IsCycle; infer_instance

theorem IsCycle.length_pos {g : Digraph V} {c : List V} (h : IsCycle g c) :
    0 < c.length := by
  cases c with
  | nil => exact absurd h (fun hf => hf)
  | cons x l => simp

theorem IsCycle.nodup {g : Digraph V} {c : List V} (h : IsCycle g c) : c.Nodup := by
  cases c with
  | nil => exact absurd h (fun hf => hf)
  | cons x l => exact h.1

theorem isCycle_mem_reach {g : Digraph V} {c : List V} (h : IsCycle g c) :
    ∀ x ∈ c, Reach g x x := by
  cases c with
  | nil => exact absurd h (fun hf => hf)
  | cons y l =>
    intro x hx
    rcases List.mem_cons.1 hx with rfl | hx
    · exact ⟨l, h.2⟩
    · obtain ⟨l₁, l₂, rfl⟩ := List.append_of_mem hx
      obtain ⟨h₁, h₂⟩ := chainTo_split _ _ h.2
      exact ⟨l₂ ++ y :: l₁, chainTo_append h₂ h₁⟩

theorem isCycle_mem_verts {g : Digraph V} {c : List V} (h : IsCycle g c) :
    ∀ x ∈ c, x ∈ g.verts := fun x hx =>
  ((isCycle_mem_reach h x hx)).start_mem_verts

/-- Any vertex reaching itself lies on a simple cycle. -/
theorem reach_self_exists_cycle {g : Digraph V} {v : V} (h : Reach g v v) :
    ∃ c, IsCycle g c := by
  obtain ⟨l, hc⟩ := h
  obtain ⟨l', hnd, _, hc'⟩ := chainTo_shrink hc
  by_cases hv : v ∈ l'
  · obtain ⟨l₁, l₂, rfl⟩ := List.append_of_mem hv
    obtain ⟨h₁, _⟩ := chainTo_split _ _ hc'
    have hvl₁ : v ∉ l₁ := by
      intro hmem
      have hd := List.disjoint_of_nodup_append hnd
      exact hd hmem (List.mem_cons_self v l₂)
    exact ⟨v :: l₁, ⟨List.nodup_cons.2 ⟨hvl₁, hnd.of_append_left⟩, h₁⟩⟩
  · exact ⟨v :: l', ⟨List.nodup_cons.2 ⟨hv, hnd⟩, hc'⟩⟩

theorem isCycle_rotate_one {g : Digraph V} {c : List V} (h : IsCycle g c) :
    IsCycle g (c.rotate 1) := by
  cases c with
  | nil => exact absurd h (fun hf => hf)
  | cons x l =>
    rw [List.rotate_cons_succ, List.rotate_zero]
    cases l with
    | nil => exact h
    | cons y m =>
      obtain ⟨hnd, he, hch⟩ := And.intro h.1 h.2
      refine ⟨?_, ?_⟩
      · exact (@List.perm_append_comm _ (y :: m) [x]).nodup_iff.2 hnd
      · exact (chainTo_append hch he : ChainTo g y (m ++ [x]) y)

theorem isCycle_rotate {g : Digraph V} {c : List V} (h : IsCycle g c) (n : ℕ) :
    IsCycle g (c.rotate n) := by
  induction n with
  | zero => rwa [List.rotate_zero]
  | succ k ih =>
    have := isCycle_rotate_one ih
    rwa [List.rotate_rotate] at this

/-- No chord: the only edges among the cycle's vertices are the cyclically
consecutive ones.  This matches the chordless-cycle notion used by
`networkx.chordless_cycles` (a self-loop or reverse edge among the cycle
vertices counts as a chord for longer cycles). -/
def Chordless (g : Digraph V) (c : List V) : Prop :=
  ∀ i j : Fin c.length,
    g.edge (c.get i) (c.get j) → (j : ℕ) = ((i : ℕ) + 1) % c.length

instance (g : Digraph V) (c : List V) : Decidable (Chordless g c) := by
  unfold Chordless; infer_instance

/-- Every graph containing a simple cycle contains a chordless one: a
minimum-length cycle has no chords, since a chord would cut it shorter. -/
theorem exists_chordless_cycle {g : Digraph V} {c : List V} (hc : IsCycle g c) :
    ∃ c', IsCycle g c' ∧ Chordless g c' := by
  generalize hn : c.length = n
  induction n using Nat.strong_induction_on generalizing c with
  | _ n ih =>
  subst hn
  by_cases hcl : Chordless g c
  · exact ⟨c, hc, hcl⟩
  · obtain ⟨i, j, hedge, hij⟩ :
        ∃ i j : Fin c.length,
          g.edge (c.get i) (c.get j) ∧ (j : ℕ) ≠ ((i : ℕ) + 1) % c.length := by
      by_contra hno
      push_neg at hno
      exact hcl hno
    have hlen0 : 0 < c.length := hc.length_pos
    have h2 : 2 ≤ c.length := by
      by_contra hlt
      have h1 : c.length = 1 := by omega
      apply hij
      have hi0 : (i : ℕ) = 0 := by have := i.isLt; omega
      have hj0 : (j : ℕ) = 0 := by have := j.isLt; omega
      rw [hi0, hj0, h1]
    -- rotate the cycle so the chord starts at the head
    have hc' : IsCycle g (c.rotate (i : ℕ)) := isCycle_rotate hc _
    have hrotlen : (c.rotate (i : ℕ)).length = c.length := List.length_rotate c _
    set j₀ := ((j : ℕ) + (c.length - (i : ℕ))) % c.length with hj₀def
    have hj₀lt : j₀ < c.length := Nat.mod_lt _ hlen0
    have hmod : (j₀ + (i : ℕ)) % c.length = (j : ℕ) := by
      rw [hj₀def, Nat.mod_add_mod]
      have hile : (i : ℕ) ≤ c.length := (i.isLt).le
      have : (j : ℕ) + (c.length - (i : ℕ)) + (i : ℕ) = (j : ℕ) + c.length := by omega
      rw [this, Nat.add_mod_right, Nat.mod_eq_of_lt j.isLt]
    have hj₀1 : j₀ ≠ 1 := by
      intro h1
      apply hij
      rw [← hmod, h1, Nat.add_comm]
    have hq0 : (c.rotate (i : ℕ)).get? 0 = some (c.get i) := by
      rw [List.get?_rotate (by omega), Nat.zero_add, Nat.mod_eq_of_lt i.isLt,
        List.get?_eq_get i.isLt]
    have hqj : (c.rotate (i : ℕ)).get? j₀ = some (c.get j) := by
      rw [List.get?_rotate hj₀lt, hmod, List.get?_eq_get j.isLt]
    obtain ⟨hd, t, hc'eq⟩ : ∃ hd t, c.rotate (i : ℕ) = hd :: t := by
      cases hcc : c.rotate (i : ℕ) with
      | nil => rw [hcc] at hrotlen; simp at hrotlen; omega
      | cons a s => exact ⟨a, s, rfl⟩
    obtain ⟨hnd', hch'⟩ : (hd :: t).Nodup ∧ ChainTo g hd t hd := by
      rw [hc'eq] at hc'
      exact ⟨hc'.1, hc'.2⟩
    have htlen : t.length = c.length - 1 := by
      rw [hc'eq] at hrotlen
      simp at hrotlen
      omega
    have hhd : hd = c.get i := by
      have h0 : (c.rotate (i : ℕ)).get? 0 = some hd := by rw [hc'eq]; rfl
      rw [h0] at hq0
      exact Option.some_inj.1 hq0
    by_cases hj₀0 : j₀ = 0
    · -- the chord is a self-loop at the head: a 1-cycle
      have hjhd : c.get j = hd := by
        rw [hj₀0] at hqj
        have h0 : (c.rotate (i : ℕ)).get? 0 = some hd := by rw [hc'eq]; rfl
        rw [h0] at hqj
        exact (Option.some_inj.1 hqj).symm
      have hself : g.edge hd hd := by
        have := hedge
        rw [← hhd, hjhd] at this
        exact this
      exact ih 1 (by omega) (show IsCycle g [hd] from ⟨List.nodup_singleton hd, hself⟩) rfl
    · -- a genuine chord: shortcut the cycle
      have hj₀2 : 2 ≤ j₀ := by omega
      have hk : j₀ - 1 < t.length := by omega
      have hgetj : c.get j = t.get ⟨j₀ - 1, hk⟩ := by
        have h' : (c.rotate (i : ℕ)).get? j₀ = some (t.get ⟨j₀ - 1, hk⟩) := by
          rw [hc'eq]
          have hsplit : j₀ = (j₀ - 1) + 1 := by omega
          conv_lhs => rw [hsplit]
          rw [List.get?_cons_succ, List.get?_eq_get hk]
        rw [h'] at hqj
        exact (Option.some_inj.1 hqj).symm
      have hdrop : t.drop (j₀ - 1) = t.get ⟨j₀ - 1, hk⟩ :: t.drop j₀ := by
        have hdg := List.drop_eq_getElem_cons hk
        have hj : j₀ - 1 + 1 = j₀ := by omega
        rw [hj] at hdg
        simpa using hdg
      have hsplit : ChainTo g (t.get ⟨j₀ - 1, hk⟩) (t.drop j₀) hd := by
        have hht : t = t.take (j₀ - 1) ++ (t.get ⟨j₀ - 1, hk⟩ :: t.drop j₀) := by
          rw [← hdrop, List.take_append_drop]
        have hcc := hch'
        rw [hht] at hcc
        exact (chainTo_split _ _ hcc).2
      have hchain'' : ChainTo g hd (t.drop (j₀ - 1)) hd := by
        rw [hdrop]
        refine ⟨?_, hsplit⟩
        have := hedge
        rw [← hhd, hgetj] at this
        exact this
      have hnd'' : (hd :: t.drop (j₀ - 1)).Nodup := by
        rw [List.nodup_cons]
        refine ⟨fun hmem => ?_, (List.nodup_cons.1 hnd').2.sublist (List.drop_sublist _ t)⟩
        exact (List.nodup_cons.1 hnd').1 ((List.drop_sublist _ t).mem hmem)
      have hlt : (hd :: t.drop (j₀ - 1)).length < c.length := by
        simp only [List.length_cons, List.length_drop]
        omega
      exact ih _ hlt (show IsCycle g (hd :: t.drop (j₀ - 1)) from ⟨hnd'', hchain''⟩) rfl

/-- The list of all chordless cycles of the graph, as enumerated by
`networkx.chordless_cycles` (the library returns each chordless cycle once,
in some order; `Catalog._check` then sorts the list, which only permutes it,
so every property proved below is stated up to membership/emptiness and is
unaffected by the enumeration order). -/
def chordlessCycles (g : Digraph V) : List (List V) :=
  (simpleLists g).filter (fun l => decide (IsCycle g l ∧ Chordless g l))

theorem mem_chordlessCycles {g : Digraph V} {l : List V} :
    l ∈ chordlessCycles g ↔ l ∈ simpleLists g ∧ IsCycle g l ∧ Chordless g l := by
  simp [chordlessCycles, List.mem_filter]

theorem chordlessCycles_eq_nil_of_acyclic {g : Digraph V} (h : Acyclic g) :
    chordlessCycles g = [] := by
  rw [List.eq_nil_iff_forall_not_mem]
  intro l hl
  obtain ⟨-, hcyc, -⟩ := mem_chordlessCycles.1 hl
  cases l with
  | nil => exact hcyc
  | cons x m => exact h.not_reach_self x ⟨m, hcyc.2⟩

theorem chordlessCycles_ne_nil_of_hasCycle {g : Digraph V} (h : HasCycle g) :
    chordlessCycles g ≠ [] := by
  obtain ⟨v, -, hr⟩ := h
  obtain ⟨c, hc⟩ := reach_self_exists_cycle hr
  obtain ⟨c', hc', hcl'⟩ := exists_chordless_cycle hc
  have hmem : c' ∈ chordlessCycles g :=
    mem_chordlessCycles.2
      ⟨mem_simpleLists hc'.nodup (isCycle_mem_verts hc'), hc', hcl'⟩
  exact List.ne_nil_of_mem hmem

theorem chordlessCycles_sound {g : Digraph V} :
    ∀ cs ∈ chordlessCycles g, ∀ x ∈ cs, Reach g x x := fun _ hcs =>
  isCycle_mem_reach (mem_chordlessCycles.1 hcs).2.1

/-- Transitive closure as computed by `networkx.transitive_closure`: same
nodes, an edge for every ordered pair connected by a non-null path. -/
def transitive_closure (g : Digraph V) : Digraph V :=
  ⟨g.nodes,
    g.verts.flatMap fun u =>
      (g.verts.filter fun v => decide (Reach g u v)).map fun v => (u, v)⟩

theorem transitive_closure_edge_iff {g : Digraph V} {u v : V} :
    (transitive_closure g).edge u v ↔ u ∈ g.verts ∧ v ∈ g.verts ∧ Reach g u v := by
  unfold transitive_closure Digraph.edge
  simp only [List.mem_flatMap, List.mem_map, List.mem_filter, decide_eq_true_eq]
  constructor
  · rintro ⟨a, ha, b, ⟨hb, hr⟩, heq⟩
    obtain ⟨rfl, rfl⟩ := Prod.mk.injEq a b u v ▸ heq
    exact ⟨ha, hb, hr⟩
  · rintro ⟨hu, hv, hr⟩
    exact ⟨u, hu, v, ⟨hv, hr⟩, rfl⟩

/-- Transitive reduction as computed by `networkx.transitive_reduction` on a
DAG: keep an edge `(u, v)` unless some other direct successor of `u` still
reaches `v`.  (Parallel edges cannot exist in a `networkx.DiGraph`, hence the
`dedup`.) -/
def transitive_reduction (g : Digraph V) : Digraph V :=
  ⟨g.nodes,
    g.edges.dedup.filter fun e =>
      decide (¬ ∃ w ∈ g.verts, g.edge e.1 w ∧ w ≠ e.2 ∧ Reach g w e.2)⟩

theorem chainTo_mono {g g' : Digraph V} (hsub : ∀ a b, g.edge a b → g'.edge a b)
    {u v : V} {l : List V} (h : ChainTo g u l v) : ChainTo g' u l v := by
  induction l generalizing u with
  | nil => exact hsub _ _ h
  | cons w l ih => exact ⟨hsub _ _ h.1, ih h.2⟩

theorem reach_mono {g g' : Digraph V} (hsub : ∀ a b, g.edge a b → g'.edge a b)
    {u v : V} (h : Reach g u v) : Reach g' u v := by
  obtain ⟨l, hc⟩ := h
  exact ⟨l, chainTo_mono hsub hc⟩

theorem reach_of_chain_reaches {g g' : Digraph V}
    (hsub : ∀ a b, g'.edge a b → Reach g a b) {u v : V} {l : List V}
    (h : ChainTo g' u l v) : Reach g u v := by
  induction l generalizing u with
  | nil => exact hsub _ _ h
  | cons w l ih => exact reach_trans (hsub _ _ h.1) (ih h.2)

theorem reach_transitive_closure {g : Digraph V} {u v : V} :
    Reach (transitive_closure g) u v ↔ Reach g u v := by
  constructor
  · rintro ⟨l, hc⟩
    exact reach_of_chain_reaches
      (fun a b hab => (transitive_closure_edge_iff.1 hab).2.2) hc
  · intro hr
    exact Reach.single
      (transitive_closure_edge_iff.2 ⟨hr.start_mem_verts, hr.end_mem_verts, hr⟩)

theorem transitive_reduction_edge_sub {g : Digraph V} {u v : V}
    (h : (transitive_reduction g).edge u v) : g.edge u v := by
  unfold transitive_reduction Digraph.edge at h
  have := List.mem_filter.1 h
  exact (List.dedup_subset g.edges) this.1

/-- On an acyclic graph the kept edges are exactly the reachable pairs with
no strictly intermediate vertex (the canonical transitive reduction). -/
theorem transitive_reduction_edge_iff {g : Digraph V} (hacyc : Acyclic g)
    {u v : V} :
    (transitive_reduction g).edge u v ↔
      Reach g u v ∧ ¬ ∃ w, Reach g u w ∧ Reach g w v := by
  unfold transitive_reduction Digraph.edge
  simp only [List.mem_filter, List.mem_dedup, decide_eq_true_eq]
  constructor
  · rintro ⟨hmem, hkeep⟩
    refine ⟨Reach.single hmem, ?_⟩
    rintro ⟨w, huw, hwv⟩
    obtain ⟨l, hchain⟩ := huw
    cases l with
    | nil =>
      have hne : w ≠ v := fun heq => hacyc.not_reach_self v (heq ▸ hwv)
      exact hkeep ⟨w, Digraph.edge_snd_mem_verts hchain, hchain, hne, hwv⟩
    | cons x l =>
      have hxw : Reach g x w := ⟨l, hchain.2⟩
      have hxv : Reach g x v := reach_trans hxw hwv
      have hne : x ≠ v := fun heq => hacyc.not_reach_self v (heq ▸ hxv)
      exact hkeep ⟨x, Digraph.edge_snd_mem_verts hchain.1, hchain.1, hne, hxv⟩
  · rintro ⟨⟨l, hchain⟩, hno⟩
    cases l with
    | nil =>
      refine ⟨hchain, ?_⟩
      rintro ⟨w, -, hew, -, hwv⟩
      exact hno ⟨w, Reach.single hew, hwv⟩
    | cons x l =>
      exact absurd ⟨x, Reach.single hchain.1, ⟨l, hchain.2⟩⟩ hno

/-- The vertices strictly between `u` and `v`. -/
def between (g : Digraph V) (u v : V) : List V :=
  g.verts.filter fun w => decide (Reach g u w ∧ Reach g w v)

theorem countP_lt_of_witness {p q : V → Bool} :
    ∀ L : List V, (∀ x ∈ L, p x = true → q x = true) →
      ∀ y ∈ L, q y = true → p y = false → L.countP p < L.countP q := by
  intro L
  induction L with
  | nil => intro _ y hy; cases hy
  | cons a t ih =>
    intro hmono y hy hqy hpy
    have hmono' : ∀ x ∈ t, p x = true → q x = true := fun x hx =>
      hmono x (List.mem_cons_of_mem a hx)
    have hle : t.countP p ≤ t.countP q := List.countP_mono_left hmono'
    rcases List.mem_cons.1 hy with rfl | hyt
    · rw [List.countP_cons, List.countP_cons, hpy, hqy]
      simpa using Nat.lt_succ_of_le hle
    · have hlt := ih hmono' y hyt hqy hpy
      rw [List.countP_cons, List.countP_cons]
      by_cases hpa : p a = true
      · rw [hpa, hmono a (List.mem_cons_self a t) hpa]
        omega
      · rw [Bool.not_eq_true] at hpa
        rw [hpa]
        by_cases hqa : q a = true <;> simp [hqa] <;> omega

theorem between_lt_left {g : Digraph V} (hacyc : Acyclic g) {u v w : V}
    (h1 : Reach g u w) (h2 : Reach g w v) :
    (between g u w).length < (between g u v).length := by
  unfold between
  rw [← List.countP_eq_length_filter, ← List.countP_eq_length_filter]
  refine countP_lt_of_witness g.verts ?_ w h1.end_mem_verts ?_ ?_
  · intro x _ hx
    rw [decide_eq_true_eq] at hx
    rw [decide_eq_true_eq]
    exact ⟨hx.1, reach_trans hx.2 h2⟩
  · rw [decide_eq_true_eq]; exact ⟨h1, h2⟩
  · rw [decide_eq_false_iff_not]
    rintro ⟨-, hww⟩
    exact hacyc.not_reach_self w hww

theorem between_lt_right {g : Digraph V} (hacyc : Acyclic g) {u v w : V}
    (h1 : Reach g u w) (h2 : Reach g w v) :
    (between g w v).length < (between g u v).length := by
  unfold between
  rw [← List.countP_eq_length_filter, ← List.countP_eq_length_filter]
  refine countP_lt_of_witness g.verts ?_ w h1.end_mem_verts ?_ ?_
  · intro x _ hx
    rw [decide_eq_true_eq] at hx
    rw [decide_eq_true_eq]
    exact ⟨reach_trans h1 hx.1, hx.2⟩
  · rw [decide_eq_true_eq]; exact ⟨h1, h2⟩
  · rw [decide_eq_false_iff_not]
    rintro ⟨hww, -⟩
    exact hacyc.not_reach_self w hww

/-- Reachability is preserved by transitive reduction on acyclic graphs. -/
theorem reach_transitive_reduction {g : Digraph V} (hacyc : Acyclic g)
    {u v : V} : Reach (transitive_reduction g) u v ↔ Reach g u v := by
  constructor
  · exact reach_mono fun a b hab => transitive_reduction_edge_sub hab
  · intro hr
    generalize hn : (between g u v).length = n
    induction n using Nat.strong_induction_on generalizing u v with
    | _ n ih =>
    by_cases hb : ∃ w, Reach g u w ∧ Reach g w v
    · obtain ⟨w, h1, h2⟩ := hb
      have ht1 : Reach (transitive_reduction g) u w :=
        ih _ (hn ▸ between_lt_left hacyc h1 h2) h1 rfl
      have ht2 : Reach (transitive_reduction g) w v :=
        ih _ (hn ▸ between_lt_right hacyc h1 h2) h2 rfl
      exact reach_trans ht1 ht2
    · exact Reach.single ((transitive_reduction_edge_iff hacyc).2 ⟨hr, hb⟩)

theorem transitive_reduction_edges_nodup (g : Digraph V) :
    (transitive_reduction g).edges.Nodup :=
  (List.nodup_dedup g.edges).filter _

/-- No edge of the transitive reduction of an acyclic graph is redundant:
deleting it disconnects its own endpoints. -/
theorem transitive_reduction_minimal {g : Digraph V} (hacyc : Acyclic g)
    {e : V × V} (he : e ∈ (transitive_reduction g).edges) :
    Reach g e.1 e.2 ∧
      ¬ Reach ⟨(transitive_reduction g).nodes,
          (transitive_reduction g).edges.erase e⟩ e.1 e.2 := by
  have hedge : (transitive_reduction g).edge e.1 e.2 := by
    unfold Digraph.edge; exact he
  have hchar := (transitive_reduction_edge_iff hacyc).1 hedge
  refine ⟨hchar.1, ?_⟩
  rintro ⟨l, hchain⟩
  have hnd := transitive_reduction_edges_nodup g
  cases l with
  | nil =>
    have hm : (e.1, e.2) ∈ (transitive_reduction g).edges.erase e := hchain
    have : (e.1, e.2) ≠ e := ((List.Nodup.mem_erase_iff hnd).1 hm).1
    exact this rfl
  | cons x l =>
    have hhead : (e.1, x) ∈ (transitive_reduction g).edges.erase e := hchain.1
    have hmem : (e.1, x) ∈ (transitive_reduction g).edges :=
      List.erase_subset _ _ hhead
    have hne : (e.1, x) ≠ e := ((List.Nodup.mem_erase_iff hnd).1 hhead).1
    have hxb : x ≠ e.2 := by
      intro heq
      apply hne
      rw [heq]
    have hrx : Reach (transitive_reduction g) x e.2 := by
      refine ⟨l, chainTo_mono ?_ hchain.2⟩
      intro a b hab
      exact List.erase_subset _ _ hab
    have hgx : Reach g x e.2 := (reach_transitive_reduction hacyc).1 hrx
    have hux : Reach g e.1 x := Reach.single (transitive_reduction_edge_sub hmem)
    exact hchar.2 ⟨x, hux, hgx⟩

/-- Embedding of `Catalog.reduce_graph` (src/model.py lines 232-239): check
for cycles and raise `CycleException` on them, otherwise return the
transitive reduction.  (`Catalog._check` sorts the cycle list; sorting only
permutes it, and every property below is invariant under permutation.) -/
def Catalog.reduce_graph (g : Digraph V) : Except (List (List V)) (Digraph V) :=
  let cycles := chordlessCycles g
  if cycles = [] then .ok (transitive_reduction g) else .error cycles

/-- Embedding of `Catalog.close_graph` (src/model.py lines 241-248): check
for cycles and raise `CycleException` on them, otherwise return the
transitive closure. -/
def Catalog.close_graph (g : Digraph V) : Except (List (List V)) (Digraph V) :=
  let cycles := chordlessCycles g
  if cycles = [] then .ok (transitive_closure g) else .error cycles

/-- A concrete cyclic graph (0 → 1 → 0) used to witness cycle detection. -/
def cycleExample : Digraph ℕ := ⟨[0, 1], [(0, 1), (1, 0)]⟩

/-- A concrete acyclic chain 0 → 1 → 2 used to witness the acyclic branch. -/
def chainExample : Digraph ℕ := ⟨[0, 1, 2], [(0, 1), (1, 2)]⟩

/-- A concrete acyclic diamond with a redundant edge, used to witness the
reduction/closure round-trip. -/
def diamondExample : Digraph ℕ := ⟨[0, 1, 2], [(0, 1), (1, 2), (0, 2)]⟩

/-- C3: for every directed graph passed to `Catalog.reduce_graph` or
`Catalog.close_graph`, if the graph contains a directed cycle the operation
raises `CycleException` carrying a non-empty list of cycles whose elements
all lie on a cycle; if the graph is acyclic, `CycleException` is never
raised. -/
theorem C3_cycle_detection (g : Digraph V) :
    (HasCycle g →
      ∃ cs, Catalog.reduce_graph g = .error cs ∧ Catalog.close_graph g = .error cs ∧
        cs ≠ [] ∧ ∀ c ∈ cs, ∀ x ∈ c, Reach g x x) ∧
    (Acyclic g →
      (∀ cs, Catalog.reduce_graph g ≠ .error cs) ∧
      (∀ cs, Catalog.close_graph g ≠ .error cs)) := by
  constructor
  · intro hcyc
    have hne := chordlessCycles_ne_nil_of_hasCycle hcyc
    refine ⟨chordlessCycles g, ?_, ?_, hne, chordlessCycles_sound⟩
    · unfold Catalog.reduce_graph
      simp [hne]
    · unfold Catalog.close_graph
      simp [hne]
  · intro hacyc
    have heq := chordlessCycles_eq_nil_of_acyclic hacyc
    refine ⟨fun cs => ?_, fun cs => ?_⟩
    · unfold Catalog.reduce_graph
      simp [heq]
    · unfold Catalog.close_graph
      simp [heq]

/-- Witness for C3 at concrete inputs: the 2-cycle raises with a sound
non-empty cycle list, the acyclic chain never raises. -/
theorem C3_cycle_detection_witness :
    (∃ cs, Catalog.reduce_graph cycleExample = .error cs ∧
      Catalog.close_graph cycleExample = .error cs ∧
      cs ≠ [] ∧ ∀ c ∈ cs, ∀ x ∈ c, Reach cycleExample x x) ∧
    ((∀ cs, Catalog.reduce_graph chainExample ≠ .error cs) ∧
     (∀ cs, Catalog.close_graph chainExample ≠ .error cs)) :=
  ⟨(C3_cycle_detection cycleExample).1 (by decide),
   (C3_cycle_detection chainExample).2 (by decide)⟩

/-- C5: for every acyclic directed graph `G`, `close_graph (reduce_graph G)`
has exactly the same reachability relation as `G`, and `reduce_graph G` has
no edge whose removal preserves that reachability relation. -/
theorem C5_reduce_close_roundtrip (g : Digraph V) (hacyc : Acyclic g) :
    ∃ r c, Catalog.reduce_graph g = .ok r ∧ Catalog.close_graph r = .ok c ∧
      (∀ u v, Reach c u v ↔ Reach g u v) ∧
      (∀ e ∈ r.edges,
        ¬ ∀ u v, Reach ⟨r.nodes, r.edges.erase e⟩ u v ↔ Reach g u v) := by
  have heq := chordlessCycles_eq_nil_of_acyclic hacyc
  have hacyc' : Acyclic (transitive_reduction g) := by
    intro v _ hr
    have hg : Reach g v v := (reach_transitive_reduction hacyc).1 hr
    exact hacyc v hg.start_mem_verts hg
  have heq' := chordlessCycles_eq_nil_of_acyclic hacyc'
  refine ⟨transitive_reduction g, transitive_closure (transitive_reduction g),
    ?_, ?_, ?_, ?_⟩
  · unfold Catalog.reduce_graph
    simp [heq]
  · unfold Catalog.close_graph
    simp [heq']
  · intro u v
    rw [reach_transitive_closure, reach_transitive_reduction hacyc]
  · intro e he hiff
    obtain ⟨hg, hnot⟩ := transitive_reduction_minimal hacyc he
    exact hnot ((hiff e.1 e.2).2 hg)

/-- Witness for C5 at a concrete input: the diamond graph with the redundant
edge 0 → 2 is acyclic, so the round-trip and minimality laws apply to it. -/
theorem C5_reduce_close_roundtrip_witness :
    ∃ r c, Catalog.reduce_graph diamondExample = .ok r ∧
      Catalog.close_graph r = .ok c ∧
      (∀ u v, Reach c u v ↔ Reach diamondExample u v) ∧
      (∀ e ∈ r.edges,
        ¬ ∀ u v, Reach ⟨r.nodes, r.edges.erase e⟩ u v ↔ Reach diamondExample u v) :=
  C5_reduce_close_roundtrip diamondExample (by decide)

/-- Node type of the flow graph in `Catalog.bottlenecks`: the Python code
mixes the original nodes with the string nodes `"source"` and `"sink"`. -/
inductive FlowNode (V : Type) where
  | source : FlowNode V
  | sink : FlowNode V
  | node : V → FlowNode V
deriving DecidableEq

/-- The flow graph of `Catalog.bottlenecks` (src/model.py lines 124-130): a
copy of `d` plus a synthetic source with edges to all in-degree-0 nodes and
a synthetic sink with edges from all out-degree-0 nodes (the sink node is
created implicitly by its first incident edge, exactly as in the code). -/
def bottlenecksFlow (d : Digraph V) : Digraph (FlowNode V) :=
  ⟨d.nodes.map .node ++ [.source],
    d.edges.map (fun e => (.node e.1, .node e.2)) ++
      (d.nodes.filter fun v => decide (¬ ∃ e ∈ d.edges, e.2 = v)).map
        (fun v => (.source, .node v)) ++
      (d.nodes.filter fun v => decide (¬ ∃ e ∈ d.edges, e.1 = v)).map
        (fun v => (.node v, .sink))⟩

/-- Modelled from the spec (§6, graph algorithms library contract):
`d` dominates `v` with respect to `root` when every path from `root` to `v`
passes through `d`.  Quantifying over duplicate-free paths is equivalent to
quantifying over all walks (see `dominates_iff_all_walks`). -/
def Dominates (g : Digraph V) (root d v : V) : Prop :=
  ∀ l ∈ simpleLists g, ChainTo g root l v → (d = root ∨ d = v ∨ d ∈ l)

instance (g : Digraph V) (root d v : V) : Decidable (Dominates g root d v) := by
  unfold Dominates; infer_instance

theorem dominates_iff_all_walks {g : Digraph V} {root d v : V} :
    Dominates g root d v ↔
      ∀ l, ChainTo g root l v → (d = root ∨ d = v ∨ d ∈ l) := by
  constructor
  · intro hdom l hc
    obtain ⟨l', hnd, hsub, hc'⟩ := chainTo_shrink hc
    rcases hdom l'
        (mem_simpleLists hnd fun x hx => chainTo_mem_verts hc x (hsub x hx)) hc' with
      h | h | h
    · exact Or.inl h
    · exact Or.inr (Or.inl h)
    · exact Or.inr (Or.inr (hsub d h))
  · intro hall l _ hc
    exact hall l hc

/-- Modelled from the spec (§6): `networkx.immediate_dominators(g, root)`
maps the root to itself and every other vertex `v` reachable from the root
to its unique immediate dominator — the strict dominator of `v` closest to
`v`, i.e. the last strict dominator along any path from the root to `v`
(every dominator lies on every such path, so this is path-independent);
unreachable vertices are absent from the returned dict (looking them up
raises `KeyError`, modelled as `none`). -/
def immediate_dominators (g : Digraph V) (root : V) : V → Option V := fun v =>
  if v = root then some root
  else
    match (simpleLists g).find? fun l => decide (ChainTo g root l v) with
    | none => none
    | some l =>
      ((root :: l).filter fun d => decide (d ≠ v ∧ Dominates g root d v)).getLast?

/-- The mutable state of the `while frontier` loop in `Catalog.bottlenecks`
(src/model.py lines 132-141); Python sets are modelled as duplicate-free
lists. -/
structure BottleneckState (W : Type) where
  bottlenecks : List W
  frontier : List W
deriving DecidableEq

/-- Python `set.add`: append the element when absent. -/
def listAdd (l : List V) (x : V) : List V := if x ∈ l then l else l ++ [x]

/-- The state just before the loop of `Catalog.bottlenecks`:
`bottlenecks = {dom_tree["sink"]}` and `frontier = set(bottlenecks)`
(src/model.py lines 131-134); a missing `"sink"` key is a `KeyError`. -/
def bottlenecksInit (d : Digraph V) : Except String (BottleneckState (FlowNode V)) :=
  match immediate_dominators (bottlenecksFlow d) .source .sink with
  | none => .error "KeyError: sink"
  | some b0 => .ok ⟨[b0], [b0]⟩

/-- One iteration of the `while frontier` loop of `Catalog.bottlenecks`
(src/model.py lines 135-141) in which `node` is the element returned by
`frontier.pop()`: look up `dom = dom_tree[node]`; if `dom` is the source or
already a bottleneck, continue; otherwise the code adds `node` (not `dom`)
back to both sets. -/
def bottlenecksStep (dom_tree : FlowNode V → Option (FlowNode V))
    (node : FlowNode V) (st : BottleneckState (FlowNode V)) :
    Except String (BottleneckState (FlowNode V)) :=
  let frontier' := st.frontier.erase node
  match dom_tree node with
  | none => .error "KeyError"
  | some dom =>
    if dom = .source ∨ dom ∈ st.bottlenecks then .ok ⟨st.bottlenecks, frontier'⟩
    else .ok ⟨listAdd st.bottlenecks node, listAdd frontier' node⟩

/-- The 3-chain 0 → 1 → 2, a finite acyclic graph on which
`Catalog.bottlenecks` fails to terminate. -/
def bottleneckChain : Digraph ℕ := ⟨[0, 1, 2], [(0, 1), (1, 2)]⟩

/-- C8: `Catalog.bottlenecks` does NOT terminate on every finite acyclic
graph with at least one node.  On the 3-chain the loop starts at
`bottlenecks = frontier = {dom_tree["sink"]} = {2}`; the single possible
iteration pops `2`, whose immediate dominator `1` is neither the source nor
a bottleneck, so the code re-adds the popped node itself (`frontier.add(node)`
instead of `frontier.add(dom)`), reproducing the same state with a non-empty
frontier: the loop never makes progress and never ends. -/
theorem C8_bottlenecks_diverges :
    bottlenecksInit bottleneckChain =
      .ok ⟨[FlowNode.node 2], [FlowNode.node 2]⟩ ∧
    bottlenecksStep (immediate_dominators (bottlenecksFlow bottleneckChain) .source)
        (FlowNode.node 2) ⟨[FlowNode.node 2], [FlowNode.node 2]⟩ =
      .ok ⟨[FlowNode.node 2], [FlowNode.node 2]⟩ ∧
    ([FlowNode.node 2] : List (FlowNode ℕ)) ≠ [] := by
  set_option maxRecDepth 8000 in
  refine ⟨?_, ?_, by decide⟩ <;> decide

/-- `model.Requirement`: a named requirement. -/
structure Requirement where
  name : String
deriving DecidableEq

/-- `model.CourseId`: department and course number. -/
structure CourseId where
  dept : String
  course_number : String
deriving DecidableEq

/-- `CourseId.is_elective` (src/model.py lines 46-56): hard-coded UVU rule.
Python evaluates `int(self.course_number[0])`, which raises `ValueError` on
a non-digit first character; the `and` chain short-circuits before that when
the department is not CS or the number is empty. -/
def CourseId.is_elective (c : CourseId) : Except String Bool :=
  if c.dept ≠ "CS" then .ok false
  else
    match c.course_number.data with
    | [] => .ok false
    | ch :: _ =>
      if ch.isDigit then
        .ok (decide (3 ≤ ch.toNat - Char.toNat '0') || decide (c.course_number = "2700"))
      else .error "ValueError"

/-- `model.Course`: id, title, credits. -/
structure Course where
  c_id : CourseId
  title : String
  creds : Int
deriving DecidableEq

/-- `model.ProgramId`. -/
structure ProgramId where
  name : String
deriving DecidableEq

/-- `model.Program`: id plus a (mutable, in Python) set of requirements. -/
structure Program where
  p_id : ProgramId
  requirements : Finset Requirement
deriving DecidableEq

/-- `model.Limits`. -/
structure Limits where
  program_credit_limit : Int := 120
  term_credit_limit : Int := 18
  terms : Int := 8
deriving DecidableEq

/-- `antichains.Op`: the constraint operators. -/
inductive Op where
  | LT | LE | GT | GE | EQ | NE | PAR
deriving DecidableEq

/-- A constraint operand, `str | int` in Python: a course name or a term
index. -/
inductive Operand where
  | course : String → Operand
  | num : Int → Operand
deriving DecidableEq

/-- `model.Catalog`: the fields used by the claims.  Dicts are modelled as
lookup functions returning `Option` (`none` = `KeyError`) or as association
lists where iteration over items matters; sets as `Finset`s. -/
structure Catalog where
  requirements : Finset Requirement
  requirement_deps : List (Requirement × Finset Requirement)
  courses : List (CourseId × Course)
  course_requirements : Requirement → Option (Finset CourseId)
  programs : ProgramId → Option Program
  limits : Limits
  selections : Finset CourseId
  constraints : List (String × Op × Operand)

/-- A linear order on course ids (lexicographic on the two strings), used
only to enumerate `Finset`s of course ids computably; every quantity
computed from such an enumeration below is order-independent, matching the
arbitrary iteration order of a Python set. -/
instance : LinearOrder CourseId :=
  LinearOrder.lift' (fun c => toLex (c.dept.data, c.course_number.data)) (by
    intro a b h
    have h2 := congrArg ofLex h
    have hd := congrArg Prod.fst h2
    have hn := congrArg Prod.snd h2
    cases a with
    | mk ad an =>
      cases b with
      | mk bd bn =>
        cases ad
        cases bd
        cases an
        cases bn
        simp_all)

/-- A linear order on requirements (by name), for the same enumeration
purpose. -/
instance : LinearOrder Requirement :=
  LinearOrder.lift' (fun r => r.name.data) (by
    intro a b h
    cases a with
    | mk an =>
      cases b with
      | mk bn =>
        cases an
        cases bn
        simp_all)

/-- Kernel-computable enumeration of a finite set in ascending order
(`Finset.sort` does not reduce inside `decide`, so we lift the structural
`List.insertionSort` over the multiset quotient; well-definedness holds
because a sorted permutation is unique under a linear order). -/
def finList {q : Type} [DecidableEq q] [LinearOrder q] (s : Finset q) : List q :=
  Quot.liftOn s.val (fun l => l.insertionSort (fun a b => a ≤ b))
    (fun l₁ l₂ h => by
      refine List.eq_of_perm_of_sorted ?_ (List.sorted_insertionSort _ l₁)
        (List.sorted_insertionSort _ l₂)
      exact (List.perm_insertionSort _ l₁).trans
        (h.trans (List.perm_insertionSort _ l₂).symm))

theorem mem_finList {q : Type} [DecidableEq q] [LinearOrder q]
    {s : Finset q} {c : q} : c ∈ finList s ↔ c ∈ s := by
  rcases s with ⟨m, hm⟩
  induction m using Quot.inductionOn with
  | h l =>
    show c ∈ l.insertionSort (fun a b => a ≤ b) ↔ _
    rw [(List.perm_insertionSort _ l).mem_iff]
    rfl

/-- Dict lookup in `Catalog.courses`. -/
def lookupCourse (courses : List (CourseId × Course)) (c : CourseId) :
    Option Course :=
  (courses.find? fun p => p.1 = c).map Prod.snd

/-- The mutable selection state of the requirement loop in
`Catalog.select_courses`: the shrinking pre-selection and the growing
required set. -/
structure SelState where
  pre_select : Finset CourseId
  required : Finset CourseId
deriving DecidableEq

/-- One iteration of the requirement loop of `Catalog.select_courses`
(src/model.py lines 171-181).  `pickPre` models `pre.pop()` and `pickRand`
models `random.choice(list(courses))`: both return some element of the set
they are given (which one is unspecified/random).  A requirement missing
from `course_requirements` is a `KeyError`; `random.choice` on an empty
list is an `IndexError`. -/
def processRequirement (course_reqs : Requirement → Option (Finset CourseId))
    (pickPre pickRand : Finset CourseId → CourseId)
    (st : SelState) (req : Requirement) : Except String SelState :=
  match course_reqs req with
  | none => .error "KeyError: requirement"
  | some courses =>
    let pre := st.pre_select ∩ courses
    if pre.Nonempty then
      let choice := pickPre pre
      .ok ⟨st.pre_select.erase choice, insert choice st.required⟩
    else if (st.required ∩ courses).Nonempty then .ok st
    else if courses.Nonempty then
      .ok ⟨st.pre_select, insert (pickRand courses) st.required⟩
    else .error "IndexError: random.choice on empty sequence"

/-- Monadic filter by `CourseId.is_elective`, propagating its `ValueError`. -/
def filterElective : List CourseId → Except String (List CourseId)
  | [] => .ok []
  | c :: t => do
    let b ← c.is_elective
    let r ← filterElective t
    pure (if b then c :: r else r)

/-- Credit sum over a list of course ids, `KeyError` on a missing course. -/
def sumCreds (courses : List (CourseId × Course)) :
    List CourseId → Except String Int
  | [] => .ok 0
  | c :: t =>
    match lookupCourse courses c with
    | none => .error "KeyError: course"
    | some course => do
      let rest ← sumCreds courses t
      pure (course.creds + rest)

/-- The elective `while` loop of `Catalog.select_courses` (src/model.py
lines 198-204).  `elective_options.pop()` removes the last element of the
shuffled list, so the loop consumes the reversed list from the front:
`opts_rev` holds the remaining options in pop order.  Returns the electives,
the final elective credit total, and whether the insufficient-electives
warning was printed before breaking. -/
def electiveLoopRev (courses : List (CourseId × Course)) (need : Int) :
    List CourseId → Finset CourseId → Int →
      Except String (Finset CourseId × Int × Bool)
  | opts_rev, electives, total =>
    if total < need then
      match opts_rev with
      | [] => .ok (electives, total, true)
      | sel :: rest =>
        match lookupCourse courses sel with
        | none => .error "KeyError: course"
        | some course =>
          electiveLoopRev courses need rest (insert sel electives)
            (total + course.creds)
    else .ok (electives, total, false)

/-- The elective phase of `Catalog.select_courses` (src/model.py lines
184-215): compute the initial elective credit sum of the remaining
pre-selected courses, run the drawing loop on the shuffled `options`, and
flag the over-credit warning.  Returns
`(electives, final elective total, insufficient-warning, over-credit-warning)`. -/
def electivePhase (courses : List (CourseId × Course)) (limit : Int)
    (total_required : Int) (pre_select : Finset CourseId)
    (options : List CourseId) :
    Except String (Finset CourseId × Int × Bool × Bool) := do
  let el ← filterElective (finList pre_select)
  let tel0 ← sumCreds courses el
  let (electives, telF, insuff) ←
    electiveLoopRev courses (limit - total_required) options.reverse pre_select tel0
  let total := total_required + telF
  pure (electives, telF, insuff, decide (total > limit))

/-- `Catalog.select_courses` (src/model.py lines 153-215).  The result is
the pair `(new catalog, outcome)`: the first component captures the lasting
mutation of the stored `Program` object performed at lines 166-169 (`|=` on
`program.requirements` mutates the set object held by the catalog), which
persists even when a later phase raises.  `reqOrder` is the (unspecified)
iteration order of the mutated `program.requirements` set, `shuffle` the
`random.shuffle` permutation, `pickPre`/`pickRand` the set-pop and
`random.choice` draws.  The outcome carries
`(required, electives, insufficient-warning, over-credit-warning)`. -/
def selectCourses (cat : Catalog) (p_id : ProgramId)
    (reqOrder : List Requirement)
    (pickPre pickRand : Finset CourseId → CourseId)
    (shuffle : List CourseId → List CourseId) :
    Catalog × Except String (Finset CourseId × Finset CourseId × Bool × Bool) :=
  match cat.programs p_id with
  | none => (cat, .error "KeyError: program")
  | some program =>
    let gens : ProgramId := ⟨"generals"⟩
    let cat' : Catalog :=
      match cat.programs gens with
      | some gprog =>
        { cat with
          programs := fun q =>
            if q = p_id then
              some ⟨p_id, program.requirements ∪ gprog.requirements⟩
            else cat.programs q }
      | none => cat
    (cat',
      do
        let st ← reqOrder.foldlM
          (processRequirement cat.course_requirements pickPre pickRand)
          ⟨cat.selections, ∅⟩
        let total_required ← sumCreds cat.courses (finList st.required)
        let opts0 := (cat.courses.map Prod.fst).filter fun c =>
          decide (c ∉ st.required ∪ st.pre_select)
        let optsE ← filterElective opts0
        let (electives, _, insuff, over) ←
          electivePhase cat.courses cat.limits.program_credit_limit
            total_required st.pre_select (shuffle optsE)
        pure (st.required, electives, insuff, over))

theorem bindOk {e : Type} {a b : Type} (x : a) (f : a → Except e b) :
    (Except.ok x >>= f : Except e b) = f x := rfl

theorem filterElective_ok (l : List CourseId)
    (h : ∀ c ∈ l, (CourseId.is_elective c).isOk = true) :
    ∃ r, filterElective l = .ok r ∧ ∀ c ∈ r, c ∈ l := by
  induction l with
  | nil => exact ⟨[], rfl, by simp⟩
  | cons c t ih =>
    obtain ⟨r, hr, hsub⟩ := ih fun x hx => h x (List.mem_cons_of_mem c hx)
    have hc := h c (List.mem_cons_self c t)
    obtain ⟨b, hb⟩ : ∃ b, CourseId.is_elective c = .ok b := by
      cases hcb : CourseId.is_elective c with
      | ok b => exact ⟨b, rfl⟩
      | error e => rw [hcb] at hc; exact absurd hc (by simp [Except.isOk, Except.toBool])
    refine ⟨if b then c :: r else r, ?_, ?_⟩
    · unfold filterElective
      rw [hb, hr]
      rfl
    · intro x hx
      by_cases hbb : b = true
      · rw [hbb] at hx
        simp only [if_pos rfl] at hx
        rcases List.mem_cons.1 hx with rfl | hx
        · exact List.mem_cons_self x t
        · exact List.mem_cons_of_mem c (hsub x hx)
      · rw [Bool.not_eq_true] at hbb
        rw [hbb] at hx
        simp only [Bool.false_eq_true, if_false] at hx
        exact List.mem_cons_of_mem c (hsub x hx)

theorem sumCreds_ok (courses : List (CourseId × Course)) (l : List CourseId)
    (h : ∀ c ∈ l, (lookupCourse courses c).isSome = true) :
    ∃ n, sumCreds courses l = .ok n := by
  induction l with
  | nil => exact ⟨0, rfl⟩
  | cons c t ih =>
    obtain ⟨n, hn⟩ := ih fun x hx => h x (List.mem_cons_of_mem c hx)
    obtain ⟨course, hcourse⟩ :=
      Option.isSome_iff_exists.1 (h c (List.mem_cons_self c t))
    refine ⟨course.creds + n, ?_⟩
    unfold sumCreds
    rw [hcourse, hn]
    rfl

theorem electiveLoopRev_ok (courses : List (CourseId × Course)) (need : Int) :
    ∀ (opts : List CourseId) (electives : Finset CourseId) (total : Int),
      (∀ c ∈ opts, (lookupCourse courses c).isSome = true) →
      ∃ e t i, electiveLoopRev courses need opts electives total = .ok (e, t, i) ∧
        (i = true ↔ t < need) ∧
        (∀ c ∈ electives, c ∈ e) ∧
        (∀ c ∈ e, c ∈ electives ∨ c ∈ opts) := by
  intro opts
  induction opts with
  | nil =>
    intro electives total _
    by_cases hlt : total < need
    · refine ⟨electives, total, true, ?_, by simp [hlt], fun c hc => hc, fun c hc => Or.inl hc⟩
      unfold electiveLoopRev
      rw [if_pos hlt]
    · refine ⟨electives, total, false, ?_, by simp [hlt], fun c hc => hc, fun c hc => Or.inl hc⟩
      unfold electiveLoopRev
      rw [if_neg hlt]
  | cons sel rest ih =>
    intro electives total hlook
    by_cases hlt : total < need
    · obtain ⟨course, hcourse⟩ :=
        Option.isSome_iff_exists.1 (hlook sel (List.mem_cons_self sel rest))
      obtain ⟨e, t, i, heq, hiff, hmono, hsub⟩ :=
        ih (insert sel electives) (total + course.creds)
          (fun x hx => hlook x (List.mem_cons_of_mem sel hx))
      refine ⟨e, t, i, ?_, hiff, ?_, ?_⟩
      · unfold electiveLoopRev
        rw [if_pos hlt]
        simp only [hcourse]
        exact heq
      · intro c hc
        exact hmono c (Finset.mem_insert_of_mem hc)
      · intro c hc
        rcases hsub c hc with hc' | hc'
        · rcases Finset.mem_insert.1 hc' with rfl | hc''
          · exact Or.inr (List.mem_cons_self c rest)
          · exact Or.inl hc''
        · exact Or.inr (List.mem_cons_of_mem sel hc')
    · refine ⟨electives, total, false, ?_, by simp [hlt], fun c hc => hc,
        fun c hc => Or.inl hc⟩
      unfold electiveLoopRev
      rw [if_neg hlt]

/-- C7: `Catalog.select_courses` treats insufficient electives and an
exceeded program-credit ceiling as warnings, not errors: provided every
course id it touches resolves in the catalog (the only genuinely fatal
conditions in this phase), the elective phase returns the selection in all
cases; the insufficient-electives warning fires exactly when the loop ran
out of candidates with the elective sum still below the need, and the
over-credit warning fires exactly when the selected total exceeds the
ceiling. -/
theorem C7_elective_phase_warns_not_raises
    (courses : List (CourseId × Course)) (limit total_required : Int)
    (pre_select : Finset CourseId) (options : List CourseId)
    (helect : ∀ c ∈ pre_select, (CourseId.is_elective c).isOk = true)
    (hlookPre : ∀ c ∈ pre_select, (lookupCourse courses c).isSome = true)
    (hlookOpt : ∀ c ∈ options, (lookupCourse courses c).isSome = true) :
    ∃ electives telF insuff,
      electivePhase courses limit total_required pre_select options =
        .ok (electives, telF, insuff, decide (total_required + telF > limit)) ∧
      (insuff = true ↔ telF < limit - total_required) ∧
      (∀ c ∈ pre_select, c ∈ electives) ∧
      (∀ c ∈ electives, c ∈ pre_select ∨ c ∈ options) := by
  obtain ⟨el, hel, helsub⟩ :=
    filterElective_ok (finList pre_select)
      (fun c hc => helect c (mem_finList.1 hc))
  obtain ⟨tel0, htel0⟩ :=
    sumCreds_ok courses el
      (fun c hc => hlookPre c (mem_finList.1 (helsub c hc)))
  obtain ⟨e, t, i, hloop, hiff, hmono, hsub⟩ :=
    electiveLoopRev_ok courses (limit - total_required)
      options.reverse pre_select tel0
      (fun c hc => hlookOpt c (List.mem_reverse.1 hc))
  refine ⟨e, t, i, ?_, hiff, hmono, ?_⟩
  · unfold electivePhase
    simp only [hel, htel0, hloop, bindOk]
    rfl
  · intro c hc
    rcases hsub c hc with hc' | hc'
    · exact Or.inl hc'
    · exact Or.inr (List.mem_reverse.1 hc')

/-- Concrete data for the C7 witness. -/
def c7Course : CourseId := ⟨"CS", "3100"⟩

/-- Concrete course table for the C7 witness. -/
def c7Courses : List (CourseId × Course) := [(c7Course, ⟨c7Course, "Algorithms", 3⟩)]

/-- Witness for C7 at a concrete input: one elective option, ceiling 3,
nothing pre-selected. -/
theorem C7_elective_phase_witness :
    ∃ electives telF insuff,
      electivePhase c7Courses 3 0 ∅ [c7Course] =
        .ok (electives, telF, insuff, decide ((0 : Int) + telF > 3)) ∧
      (insuff = true ↔ telF < 3 - 0) ∧
      (∀ c ∈ (∅ : Finset CourseId), c ∈ electives) ∧
      (∀ c ∈ electives, c ∈ (∅ : Finset CourseId) ∨ c ∈ [c7Course]) :=
  C7_elective_phase_warns_not_raises c7Courses 3 0 ∅ [c7Course]
    (by decide) (by decide) (by decide)

/-- C6: each requirement processed by `Catalog.select_courses` takes exactly
one of three mutually exclusive branches — consume a satisfying pre-selected
course (removing it from the pre-selection), reuse an already-required
satisfying course (adding nothing), or add one random satisfying course —
and in every branch at most one course is added to the required set, and any
course added satisfies the requirement (so a requirement satisfiable by two
courses never gets both). -/
theorem C6_requirement_branching
    (course_reqs : Requirement → Option (Finset CourseId))
    (pickPre pickRand : Finset CourseId → CourseId)
    (st : SelState) (req : Requirement) (courses : Finset CourseId)
    (hlook : course_reqs req = some courses)
    (hne : courses.Nonempty)
    (hpre : (st.pre_select ∩ courses).Nonempty →
      pickPre (st.pre_select ∩ courses) ∈ st.pre_select ∩ courses)
    (hrand : pickRand courses ∈ courses) :
    ∃ st', processRequirement course_reqs pickPre pickRand st req = .ok st' ∧
      (((st.pre_select ∩ courses).Nonempty ∧
          ∃ c ∈ st.pre_select ∩ courses,
            st' = ⟨st.pre_select.erase c, insert c st.required⟩) ∨
       (st.pre_select ∩ courses = ∅ ∧ (st.required ∩ courses).Nonempty ∧
          st' = st) ∨
       (st.pre_select ∩ courses = ∅ ∧ st.required ∩ courses = ∅ ∧
          ∃ c ∈ courses, st' = ⟨st.pre_select, insert c st.required⟩)) ∧
      st'.required.card ≤ st.required.card + 1 ∧
      (∀ c ∈ st'.required, c ∈ st.required ∨ c ∈ courses) := by
  unfold processRequirement
  simp only [hlook]
  by_cases h1 : (st.pre_select ∩ courses).Nonempty
  · rw [if_pos h1]
    refine ⟨_, rfl, Or.inl ⟨h1, pickPre (st.pre_select ∩ courses), hpre h1, rfl⟩,
      Finset.card_insert_le _ _, ?_⟩
    intro c hc
    rcases Finset.mem_insert.1 hc with rfl | hc'
    · exact Or.inr (Finset.mem_of_mem_inter_right (hpre h1))
    · exact Or.inl hc'
  · have h1' : st.pre_select ∩ courses = ∅ := Finset.not_nonempty_iff_eq_empty.1 h1
    rw [if_neg h1]
    by_cases h2 : (st.required ∩ courses).Nonempty
    · rw [if_pos h2]
      exact ⟨st, rfl, Or.inr (Or.inl ⟨h1', h2, rfl⟩), by omega, fun c hc => Or.inl hc⟩
    · have h2' : st.required ∩ courses = ∅ := Finset.not_nonempty_iff_eq_empty.1 h2
      rw [if_neg h2, if_pos hne]
      refine ⟨_, rfl, Or.inr (Or.inr ⟨h1', h2', pickRand courses, hrand, rfl⟩),
        Finset.card_insert_le _ _, ?_⟩
      intro c hc
      rcases Finset.mem_insert.1 hc with rfl | hc'
      · exact Or.inr hrand
      · exact Or.inl hc'

/-- Concrete requirement for the C6 witness. -/
def c6Req : Requirement := ⟨"basic programming"⟩

/-- Concrete satisfying set for the C6 witness: two courses, matching the
spec's two-course scenario. -/
def c6Courses : Finset CourseId := {⟨"CS", "1400"⟩, ⟨"CS", "1410"⟩}

/-- Concrete requirement→courses table for the C6 witness. -/
def c6Lookup : Requirement → Option (Finset CourseId) := fun r =>
  if r = c6Req then some c6Courses else none

/-- A concrete draw function for the C6 witness (stands in for `pop` /
`random.choice`). -/
def c6Pick : Finset CourseId → CourseId := fun _ => ⟨"CS", "1400"⟩

/-- Witness for C6 at a concrete input: a requirement satisfied by two
courses, neither pre-selected, starting from an empty selection state. -/
theorem C6_requirement_branching_witness :
    ∃ st', processRequirement c6Lookup c6Pick c6Pick ⟨∅, ∅⟩ c6Req = .ok st' ∧
      ((((∅ : Finset CourseId) ∩ c6Courses).Nonempty ∧
          ∃ c ∈ (∅ : Finset CourseId) ∩ c6Courses,
            st' = ⟨(∅ : Finset CourseId).erase c, insert c (∅ : Finset CourseId)⟩) ∨
       ((∅ : Finset CourseId) ∩ c6Courses = ∅ ∧
          ((∅ : Finset CourseId) ∩ c6Courses).Nonempty ∧ st' = ⟨∅, ∅⟩) ∨
       ((∅ : Finset CourseId) ∩ c6Courses = ∅ ∧
          (∅ : Finset CourseId) ∩ c6Courses = ∅ ∧
          ∃ c ∈ c6Courses, st' = ⟨∅, insert c ∅⟩)) ∧
      st'.required.card ≤ (∅ : Finset CourseId).card + 1 ∧
      (∀ c ∈ st'.required, c ∈ (∅ : Finset CourseId) ∨ c ∈ c6Courses) :=
  C6_requirement_branching c6Lookup c6Pick c6Pick ⟨∅, ∅⟩ c6Req c6Courses
    (by decide) (by decide) (by decide) (by decide)

/-- C10: when the catalog has a `"generals"` program, `select_courses p_id`
permanently mutates the stored `Program` for `p_id`, replacing its
requirement set by its union with the generals requirements (and changing
nothing else in the catalog); when there is no `"generals"` program the
catalog comes back entirely unchanged. -/
theorem C10_generals_mutation (cat : Catalog) (p_id : ProgramId)
    (prog : Program) (hp : cat.programs p_id = some prog)
    (reqOrder : List Requirement)
    (pickPre pickRand : Finset CourseId → CourseId)
    (shuffle : List CourseId → List CourseId) :
    (∀ gprog, cat.programs ⟨"generals"⟩ = some gprog →
      (selectCourses cat p_id reqOrder pickPre pickRand shuffle).1 =
        { cat with
          programs := fun q =>
            if q = p_id then
              some ⟨p_id, prog.requirements ∪ gprog.requirements⟩
            else cat.programs q }) ∧
    (cat.programs ⟨"generals"⟩ = none →
      (selectCourses cat p_id reqOrder pickPre pickRand shuffle).1 = cat) := by
  constructor
  · intro gprog hg
    unfold selectCourses
    rw [hp]
    simp only [hg]
  · intro hg
    unfold selectCourses
    rw [hp]
    simp only [hg]

/-- Concrete program for the C10 witness. -/
def c10Prog : Program := ⟨⟨"CS_BS"⟩, {⟨"core"⟩}⟩

/-- Concrete generals program for the C10 witness. -/
def c10Gens : Program := ⟨⟨"generals"⟩, {⟨"english"⟩}⟩

/-- Concrete catalog containing a `"generals"` program. -/
def c10CatWith : Catalog :=
  { requirements := ∅
    requirement_deps := []
    courses := []
    course_requirements := fun _ => none
    programs := fun p =>
      if p = ⟨"CS_BS"⟩ then some c10Prog
      else if p = ⟨"generals"⟩ then some c10Gens
      else none
    limits := {}
    selections := ∅
    constraints := [] }

/-- Concrete catalog without a `"generals"` program. -/
def c10CatWithout : Catalog :=
  { requirements := ∅
    requirement_deps := []
    courses := []
    course_requirements := fun _ => none
    programs := fun p => if p = ⟨"CS_BS"⟩ then some c10Prog else none
    limits := {}
    selections := ∅
    constraints := [] }

/-- A throwaway draw function for the C10 witness. -/
def c10Pick : Finset CourseId → CourseId := fun _ => ⟨"", ""⟩

/-- Witness for C10 at concrete inputs: with a generals program the stored
program for `CS_BS` is updated to the union; without one the catalog is
untouched. -/
theorem C10_generals_mutation_witness :
    ((selectCourses c10CatWith ⟨"CS_BS"⟩ [] c10Pick c10Pick id).1 =
      { c10CatWith with
        programs := fun q =>
          if q = ⟨"CS_BS"⟩ then
            some ⟨⟨"CS_BS"⟩, c10Prog.requirements ∪ c10Gens.requirements⟩
          else c10CatWith.programs q }) ∧
    ((selectCourses c10CatWithout ⟨"CS_BS"⟩ [] c10Pick c10Pick id).1 =
      c10CatWithout) :=
  ⟨(C10_generals_mutation c10CatWith ⟨"CS_BS"⟩ c10Prog (by decide) []
      c10Pick c10Pick id).1 c10Gens (by decide),
   (C10_generals_mutation c10CatWithout ⟨"CS_BS"⟩ c10Prog (by decide) []
      c10Pick c10Pick id).2 (by decide)⟩

/-- Errors escaping `Catalog.build_courses_graph`: a missing dict key or a
`CycleException`. -/
inductive BuildErr where
  | key : String → BuildErr
  | cycles : List (List CourseId) → BuildErr
deriving DecidableEq

/-- The raw course-level dependency edges built by the loop nest of
`Catalog.build_courses_graph` (src/model.py lines 223-229): for every
requirement-dependency pair and every satisfying post/pre course pair with
`pre ≠ post`, the edge `(pre, post)`.  A requirement absent from
`course_requirements` raises `KeyError`. -/
def buildCoursesEdges (cat : Catalog) :
    Except String (List (CourseId × CourseId)) :=
  cat.requirement_deps.foldlM
    (fun acc p =>
      match cat.course_requirements p.1 with
      | none => .error "KeyError: requirement"
      | some posts =>
        (finList p.2).foldlM
          (fun acc2 dep =>
            match cat.course_requirements dep with
            | none => .error "KeyError: requirement"
            | some pres =>
              .ok (acc2 ++ (finList posts).flatMap fun post =>
                (finList pres).filterMap fun pre =>
                  if pre ≠ post then some (pre, post) else none))
          acc)
    []

/-- The node-set restriction `DiGraph.subgraph`: keep the nodes in `courses`
and the edges between them. -/
def subgraphOf (g : Digraph CourseId) (courses : Finset CourseId) :
    Digraph CourseId :=
  ⟨g.nodes.filter fun v => decide (v ∈ courses),
    g.edges.filter fun e => decide (e.1 ∈ courses ∧ e.2 ∈ courses)⟩

/-- `Catalog.build_courses_graph` (src/model.py lines 217-230): build the
full course dependency graph, transitively close it (which cycle-checks the
FULL graph), restrict to `courses`, then transitively reduce (cycle-checking
again).  The nodes of the raw graph are the endpoints of its edges, as with
`networkx.DiGraph.add_edge`. -/
def build_courses_graph (cat : Catalog) (courses : Finset CourseId) :
    Except BuildErr (Digraph CourseId) :=
  match buildCoursesEdges cat with
  | .error e => .error (.key e)
  | .ok edges =>
    let result : Digraph CourseId := ⟨edges.flatMap fun e => [e.1, e.2], edges⟩
    match Catalog.close_graph result with
    | .error cs => .error (.cycles cs)
    | .ok closed =>
      match Catalog.reduce_graph (subgraphOf closed courses) with
      | .error cs => .error (.cycles cs)
      | .ok reduced => .ok reduced

/-- Requirements of the concrete C9 counterexample catalog. -/
def c9R1 : Requirement := ⟨"R1"⟩

/-- Second requirement of the concrete C9 counterexample catalog. -/
def c9R2 : Requirement := ⟨"R2"⟩

/-- A catalog whose requirement dependencies induce a cyclic course graph
(course a requires course b and vice versa). -/
def c9CyclicCat : Catalog :=
  { requirements := {c9R1, c9R2}
    requirement_deps := [(c9R1, {c9R2}), (c9R2, {c9R1})]
    courses := []
    course_requirements := fun r =>
      if r = c9R1 then some {⟨"CS", "a"⟩}
      else if r = c9R2 then some {⟨"CS", "b"⟩}
      else none
    programs := fun _ => none
    limits := {}
    selections := ∅
    constraints := [] }

/-- Recognize a `CycleException` outcome with a non-empty cycle list. -/
def isCycleError (r : Except BuildErr (Digraph CourseId)) : Bool :=
  match r with
  | .error (.cycles cs) => !cs.isEmpty
  | _ => false

/-- Counterexample to C9 as stated: on a catalog whose requirement
dependencies induce a cyclic full course graph, `build_courses_graph` with
an EMPTY courses set still raises `CycleException` (the cycle check runs on
the full graph before the restriction), rather than returning an empty
graph without error. -/
theorem C9_empty_courses_counterexample :
    isCycleError (build_courses_graph c9CyclicCat ∅) = true := by decide

/-- C9 (amended): with an empty `courses` set, `build_courses_graph` returns
the empty graph and raises nothing, PROVIDED every requirement mentioned in
the dependencies resolves and the full induced course graph is acyclic; a
cyclic full graph raises `CycleException` even for empty `courses`. -/
theorem C9_empty_courses_amended (cat : Catalog)
    (es : List (CourseId × CourseId))
    (hes : buildCoursesEdges cat = .ok es)
    (hacyc : Acyclic (⟨es.flatMap fun e => [e.1, e.2], es⟩ : Digraph CourseId)) :
    build_courses_graph cat ∅ = .ok ⟨[], []⟩ := by
  unfold build_courses_graph
  simp only [hes]
  have hclose : Catalog.close_graph
      (⟨es.flatMap fun e => [e.1, e.2], es⟩ : Digraph CourseId) =
      .ok (transitive_closure ⟨es.flatMap fun e => [e.1, e.2], es⟩) := by
    unfold Catalog.close_graph
    simp [chordlessCycles_eq_nil_of_acyclic hacyc]
  simp only [hclose]
  have hsub : subgraphOf
      (transitive_closure ⟨es.flatMap fun e => [e.1, e.2], es⟩) ∅ =
      (⟨[], []⟩ : Digraph CourseId) := by
    unfold subgraphOf
    refine congrArg₂ Digraph.mk ?_ ?_ <;>
      simp [List.filter_eq_nil_iff]
  simp only [hsub]
  have hred : Catalog.reduce_graph (⟨[], []⟩ : Digraph CourseId) =
      .ok (⟨[], []⟩ : Digraph CourseId) := by decide
  simp only [hred]

/-- A catalog with a single acyclic requirement dependency, for the C9
witness. -/
def c9AcyclicCat : Catalog :=
  { requirements := {c9R1, c9R2}
    requirement_deps := [(c9R1, {c9R2})]
    courses := []
    course_requirements := fun r =>
      if r = c9R1 then some {⟨"CS", "a"⟩}
      else if r = c9R2 then some {⟨"CS", "b"⟩}
      else none
    programs := fun _ => none
    limits := {}
    selections := ∅
    constraints := [] }

/-- Witness for the amended C9 at a concrete input: an acyclic catalog with
empty `courses` yields the empty graph with no error. -/
theorem C9_empty_courses_amended_witness :
    build_courses_graph c9AcyclicCat ∅ = .ok ⟨[], []⟩ :=
  C9_empty_courses_amended c9AcyclicCat [(⟨"CS", "b"⟩, ⟨"CS", "a"⟩)]
    (by decide) (by decide)

/-- Syntax of the z3 integer terms the scheduler builds. -/
inductive Z3Term where
  | var : String → Z3Term
  | int : Int → Z3Term
  | add : Z3Term → Z3Term → Z3Term
deriving DecidableEq

/-- Syntax of the assertions the scheduler adds to its solver. -/
inductive Assertion where
  | lt : Z3Term → Z3Term → Assertion
  | le : Z3Term → Z3Term → Assertion
  | gt : Z3Term → Z3Term → Assertion
  | ge : Z3Term → Z3Term → Assertion
  | eq : Z3Term → Z3Term → Assertion
  | ne : Z3Term → Z3Term → Assertion
  | parEq : Z3Term → Z3Term → Assertion
  | implies : Assertion → Assertion → Assertion
deriving DecidableEq

/-- Value of a z3 term under an integer assignment of the variables. -/
def Z3Term.eval (σ : String → Int) : Z3Term → Int
  | .var n => σ n
  | .int n => n
  | .add a b => a.eval σ + b.eval σ

/-- Truth of an assertion under an assignment (z3 integer `mod` is
Euclidean, as is Lean's `%` on `Int`). -/
def Assertion.holds (σ : String → Int) : Assertion → Prop
  | .lt a b => a.eval σ < b.eval σ
  | .le a b => a.eval σ ≤ b.eval σ
  | .gt a b => a.eval σ > b.eval σ
  | .ge a b => a.eval σ ≥ b.eval σ
  | .eq a b => a.eval σ = b.eval σ
  | .ne a b => a.eval σ ≠ b.eval σ
  | .parEq a b => a.eval σ % 2 = b.eval σ % 2
  | .implies p q => p.holds σ → q.holds σ

instance instAssertionHoldsDecidable (σ : String → Int) :
    ∀ a : Assertion, Decidable (a.holds σ)
  | .lt _ _ => by unfold Assertion.holds; infer_instance
  | .le _ _ => by unfold Assertion.holds; infer_instance
  | .gt _ _ => by unfold Assertion.holds; infer_instance
  | .ge _ _ => by unfold Assertion.holds; infer_instance
  | .eq _ _ => by unfold Assertion.holds; infer_instance
  | .ne _ _ => by unfold Assertion.holds; infer_instance
  | .parEq _ _ => by unfold Assertion.holds; infer_instance
  | .implies p q =>
    have : Decidable (p.holds σ) := instAssertionHoldsDecidable σ p
    have : Decidable (q.holds σ) := instAssertionHoldsDecidable σ q
    by unfold Assertion.holds; infer_instance

/-- The scheduler's model-building state: the fields of
`antichains.Scheduler` that matter for the generated assertions.
`names` is the key list of `course_lookup` in dict insertion order (both z3
variables of a course are derived from its name). -/
structure SchedSt where
  assertions : List Assertion
  names : List String
  prereqs : List (String × String)
  term_count : Int
  term_credit_max : Int
  terms_past : Int
  total_required : Int
  credits_past : Int
  counter : ℕ
deriving DecidableEq

/-- `sorted(courses)`: Python sorts the `(name, credits)` tuples
lexicographically, strings by code point.  (Keyed through `List Char` so the
kernel can evaluate it; the order coincides with Python's.) -/
def sortCourses (courses : List (String × Int)) : List (String × Int) :=
  courses.insertionSort fun p q => toLex (p.1.data, p.2) ≤ toLex (q.1.data, q.2)

theorem mem_sortCourses {courses : List (String × Int)} {p : String × Int} :
    p ∈ sortCourses courses ↔ p ∈ courses :=
  (List.perm_insertionSort _ courses).mem_iff

/-- `math.ceil(a / b)` on integers (exact; Python goes through a float, a
difference only for astronomically large magnitudes). -/
def pyCeilDiv (a b : Int) : Int := -((-a).fdiv b)

/-- `Scheduler.make_course_data` (src/antichains.py lines 111-124): create
the two variables of a course, adjust `credits_past`, and assert the term
range and the credit equations. -/
def makeCourseData (st : SchedSt) (name : String) (credits : Int)
    (term_infimum : Int) : SchedSt :=
  { st with
    credits_past :=
      st.credits_past + (if term_infimum < st.terms_past then credits else 0)
    assertions := st.assertions ++
      [.gt (.var (name ++ "_term")) (.int term_infimum),
       .le (.var (name ++ "_term")) (.int st.term_count),
       .eq (.var (name ++ "_credits")) (.int credits),
       .gt (.var (name ++ "_credits")) (.int 0),
       .le (.var (name ++ "_credits")) (.var "max_credits")]
    names := if name ∈ st.names then st.names else st.names ++ [name] }

/-- The `past_courses` set computed in `Scheduler.__init__` (src/antichains.py
lines 94-98): left-hand sides of constraints whose integer right operand is
at most `terms_past`. -/
def pastCourses (constraints : List (String × Op × Operand)) (terms_past : Int) :
    List String :=
  constraints.filterMap fun c =>
    match c.2.2 with
    | .num n => if n ≤ terms_past then some c.1 else none
    | .course _ => none

/-- `Scheduler.to_const` (src/antichains.py lines 126-137): a course name
resolves to its term variable (`ValueError` when unknown); an integer below
1 counts back from the last term. -/
def to_const (st : SchedSt) : Operand → Except String Z3Term
  | .course name =>
    if name ∈ st.names then .ok (.var (name ++ "_term"))
    else .error ("No such course: " ++ name)
  | .num n => .ok (.int (if n < 1 then n + st.term_count else n))

/-- The exhaustive operator dispatch of `Scheduler.add_constraint`
(src/antichains.py lines 197-213). -/
def assertionOf (op : Op) (l r : Z3Term) : Assertion :=
  match op with
  | .LT => .lt l r
  | .LE => .le l r
  | .GT => .gt l r
  | .GE => .ge l r
  | .EQ => .eq l r
  | .NE => .ne l r
  | .PAR => .parEq l r

/-- `Scheduler.add_constraint` (src/antichains.py lines 190-213). -/
def add_constraint (st : SchedSt) (l : Operand) (op : Op) (r : Operand) :
    Except String SchedSt := do
  let lc ← to_const st l
  let rc ← to_const st r
  pure { st with assertions := st.assertions ++ [assertionOf op lc rc] }

/-- `Scheduler.__init__` (src/antichains.py lines 69-109): sort the courses,
sum the required credits, collect the past-marked courses, create each
course's variables and range assertions, then assert every extra
constraint. -/
def initScheduler (courses : List (String × Int))
    (prereqs : List (String × String))
    (term_count term_credit_max terms_past : Int)
    (constraints : Option (List (String × Op × Operand))) :
    Except String SchedSt :=
  let cs := constraints.getD []
  let sorted := sortCourses courses
  let past := pastCourses cs terms_past
  let st0 : SchedSt :=
    { assertions := []
      names := []
      prereqs := prereqs
      term_count := term_count
      term_credit_max := term_credit_max
      terms_past := terms_past
      total_required := (sorted.map Prod.snd).sum
      credits_past := 0
      counter := 0 }
  let st1 := sorted.foldl
    (fun st p => makeCourseData st p.1 p.2 (if p.1 ∈ past then 0 else terms_past))
    st0
  cs.foldlM (fun st c => add_constraint st (.course c.1) c.2.1 c.2.2) st1

/-- `Scheduler.make_term_total_variable` (src/antichains.py lines 139-142). -/
def makeTermTotalVariable (st : SchedSt) (term : Int) : String × SchedSt :=
  ("total_" ++ toString term ++ "_" ++ toString st.counter,
   { st with counter := st.counter + 1 })

/-- The creation of the initial per-term total variables
(src/antichains.py lines 163-165). -/
def initTotals (st : SchedSt) : List String × SchedSt :=
  (List.range st.term_count.toNat).foldl
    (fun (acc : List String × SchedSt) (index : ℕ) =>
      let r := makeTermTotalVariable acc.2 ((index : Int) + 1)
      (acc.1 ++ [r.1], r.2))
    ([], st)

/-- The per-course generation of fresh running-total variables and their
defining implications (src/antichains.py lines 168-181). -/
def coursePass (name : String) (totals : List String) (st : SchedSt) :
    List String × SchedSt :=
  let r := totals.foldl
    (fun (a : List String × SchedSt × Int) prev =>
      let next := makeTermTotalVariable a.2.1 a.2.2
      let st2 :=
        { next.2 with
          assertions := next.2.assertions ++
            [.implies (.eq (.var (name ++ "_term")) (.int a.2.2))
              (.eq (.var next.1)
                (.add (.var prev) (.var (name ++ "_credits")))),
             .implies (.ne (.var (name ++ "_term")) (.int a.2.2))
              (.eq (.var next.1) (.var prev))] }
      (a.1 ++ [next.1], st2, a.2.2 + 1))
    ([], st, 1)
  (r.1, r.2.1)

/-- The final per-term ceiling assertions, skipping terms already past
(src/antichains.py lines 183-186). -/
def finalTotalBounds (totals : List String) (st : SchedSt) : SchedSt :=
  (totals.foldl
    (fun (a : SchedSt × Int) total =>
      (if a.2 < a.1.terms_past then a.1
       else
        { a.1 with
          assertions := a.1.assertions ++ [.le (.var total) (.var "max_credits")] },
       a.2 + 1))
    (st, 0)).1

/-- The second half of `Scheduler.generate_schedule` (src/antichains.py
lines 157-188): prerequisite orderings and the running-total chain. -/
def generateTail (st2 : SchedSt) : Except String SchedSt := do
  let st3 ← st2.prereqs.foldlM
    (fun (s : SchedSt) (pr : String × String) =>
      add_constraint s (.course pr.1) Op.LT (.course pr.2)) st2
  let r0 : List String × SchedSt := initTotals st3
  let st5 : SchedSt :=
    { r0.2 with assertions := r0.2.assertions ++
        r0.1.map fun t => Assertion.eq (.var t) (.int 0) }
  let r : List String × SchedSt :=
    st5.names.foldl (fun a name => coursePass name a.1 a.2) (r0.1, st5)
  pure (finalTotalBounds r.1 r.2)

/-- The model-building part of `Scheduler.generate_schedule`
(src/antichains.py lines 144-188): ceiling bounds for `max_credits`, then
the rest of the model.  `term_count` equal to `terms_past` is Python's
`ZeroDivisionError`. -/
def generateSchedule (st : SchedSt) : Except String SchedSt :=
  let st1 : SchedSt :=
    { st with assertions := st.assertions ++
        [Assertion.le (.var "max_credits") (.int st.term_credit_max)] }
  if st.term_count - st.terms_past = 0 then .error "ZeroDivisionError"
  else
    generateTail
      { st1 with assertions := st1.assertions ++
          [Assertion.ge (.var "max_credits")
            (.int (pyCeilDiv (st.total_required - st.credits_past)
              (st.term_count - st.terms_past)))] }

/-- Scheduler construction followed by model building: every assertion a
produced schedule must satisfy. -/
def buildModel (courses : List (String × Int))
    (prereqs : List (String × String))
    (term_count term_credit_max terms_past : Int)
    (constraints : Option (List (String × Op × Operand))) :
    Except String SchedSt :=
  (initScheduler courses prereqs term_count term_credit_max terms_past
    constraints).bind generateSchedule

/-- The assertion set of a build outcome.  A failed build yields the single
unsatisfiable marker `0 < 0`: no assignment satisfies it, so statements
quantified over satisfying assignments are never vacuously about errors. -/
def modelAssertions (r : Except String SchedSt) : List Assertion :=
  match r with
  | .ok st => st.assertions
  | .error _ => [.lt (.int 0) (.int 0)]

/-- The six parameter slots of `Scheduler.__init__`
(src/antichains.py lines 69-77), with the types of the values that
`Catalog.generate_schedule` actually binds to them. -/
structure SchedulerCallArgs where
  courses : List (String × Int)
  prereqs : List (String × String)
  term_count : Int
  term_credit_max : Int
  terms_past_arg : List (String × Op × Operand)
  constraints_arg : Option (List (String × Op × Operand))

/-- The `Scheduler(...)` call in `Catalog.generate_schedule` (src/model.py
lines 353-359): exactly five positional arguments are passed — courses,
prereqs, `self.limits.terms`, `self.limits.term_credit_limit`, and
`self.constraints`.  Python binds the fifth, the catalog's constraint set,
to the `terms_past` parameter; the `constraints` parameter is left at its
default `None`. -/
def generateScheduleSchedulerCall (cat : Catalog)
    (courses : List (String × Int)) (prereqs : List (String × String)) :
    SchedulerCallArgs :=
  ⟨courses, prereqs, cat.limits.terms, cat.limits.term_credit_limit,
    cat.constraints, none⟩

/-- The constraints `Scheduler.__init__` iterates and asserts
(src/antichains.py lines 89-92 and 108-109): its `constraints` parameter,
with `None` replaced by the empty list. -/
def schedulerExtraConstraints
    (constraints : Option (List (String × Op × Operand))) :
    List (String × Op × Operand) :=
  constraints.getD []

/-- C1 fails on the code: whatever the catalog's constraint set is,
`Catalog.generate_schedule` never hands it to the scheduler's `constraints`
parameter — the set is positionally bound to `terms_past`, the
`constraints` parameter stays `None`, and so the list of extra constraints
the scheduler asserts is always empty; in particular none of the catalog's
constraints is ever asserted. -/
theorem C1_constraints_never_asserted (cat : Catalog)
    (courses : List (String × Int)) (prereqs : List (String × String)) :
    schedulerExtraConstraints
      (generateScheduleSchedulerCall cat courses prereqs).constraints_arg = [] ∧
    (generateScheduleSchedulerCall cat courses prereqs).terms_past_arg =
      cat.constraints ∧
    ∀ c ∈ cat.constraints,
      c ∉ schedulerExtraConstraints
        (generateScheduleSchedulerCall cat courses prereqs).constraints_arg := by
  refine ⟨rfl, rfl, ?_⟩
  intro c _ hc
  simp [schedulerExtraConstraints, generateScheduleSchedulerCall] at hc

/-- Assertion-list extension between scheduler states. -/
def StExtends (st st' : SchedSt) : Prop :=
  ∃ t, st'.assertions = st.assertions ++ t

theorem stExtends_refl (st : SchedSt) : StExtends st st := ⟨[], by simp⟩

theorem stExtends_trans {s1 s2 s3 : SchedSt}
    (h1 : StExtends s1 s2) (h2 : StExtends s2 s3) : StExtends s1 s3 := by
  obtain ⟨t1, e1⟩ := h1
  obtain ⟨t2, e2⟩ := h2
  exact ⟨t1 ++ t2, by rw [e2, e1, List.append_assoc]⟩

theorem StExtends.mem {s1 s2 : SchedSt} (h : StExtends s1 s2) {x : Assertion}
    (hx : x ∈ s1.assertions) : x ∈ s2.assertions := by
  obtain ⟨t, e⟩ := h
  rw [e]
  exact List.mem_append_left t hx

/-- Fields of the state untouched by constraint assertion and model
generation. -/
def StFrame (st st' : SchedSt) : Prop :=
  st'.names = st.names ∧ st'.prereqs = st.prereqs ∧
    st'.term_count = st.term_count ∧ st'.terms_past = st.terms_past

theorem stFrame_refl (st : SchedSt) : StFrame st st := ⟨rfl, rfl, rfl, rfl⟩

theorem stFrame_trans {s1 s2 s3 : SchedSt}
    (h1 : StFrame s1 s2) (h2 : StFrame s2 s3) : StFrame s1 s3 :=
  ⟨h2.1.trans h1.1, h2.2.1.trans h1.2.1, h2.2.2.1.trans h1.2.2.1,
    h2.2.2.2.trans h1.2.2.2⟩

theorem add_constraint_shape {st st' : SchedSt} {l r : Operand} {op : Op}
    (h : add_constraint st l op r = .ok st') :
    ∃ x, st' = { st with assertions := st.assertions ++ [x] } := by
  unfold add_constraint at h
  cases hl : to_const st l with
  | error e => rw [hl] at h; exact absurd h (by simp [Bind.bind, Except.bind, Functor.map, Except.map])
  | ok lc =>
    cases hr : to_const st r with
    | error e => rw [hl, hr] at h; exact absurd h (by simp [Bind.bind, Except.bind, Functor.map, Except.map])
    | ok rc =>
      rw [hl, hr] at h
      refine ⟨assertionOf op lc rc, ?_⟩
      have h' : Except.ok
          { st with assertions := st.assertions ++ [assertionOf op lc rc] } =
          Except.ok st' := h
      exact (Except.ok.inj h').symm

theorem add_constraint_extends_frame {st st' : SchedSt} {l r : Operand}
    {op : Op} (h : add_constraint st l op r = .ok st') :
    StExtends st st' ∧ StFrame st st' := by
  obtain ⟨x, rfl⟩ := add_constraint_shape h
  exact ⟨⟨[x], rfl⟩, ⟨rfl, rfl, rfl, rfl⟩⟩

theorem to_const_course_mem {st : SchedSt} {name : String}
    (h : name ∈ st.names) :
    to_const st (.course name) = .ok (.var (name ++ "_term")) := by
  show (if name ∈ st.names then Except.ok (Z3Term.var (name ++ "_term"))
    else Except.error ("No such course: " ++ name)) = _
  rw [if_pos h]

theorem to_const_course_not_mem {st : SchedSt} {name : String}
    (h : name ∉ st.names) :
    to_const st (.course name) = .error ("No such course: " ++ name) := by
  show (if name ∈ st.names then Except.ok (Z3Term.var (name ++ "_term"))
    else Except.error ("No such course: " ++ name)) = _
  rw [if_neg h]

theorem add_constraint_course_lt {st st' : SchedSt} {b a : String}
    (h : add_constraint st (.course b) Op.LT (.course a) = .ok st') :
    st' = { st with assertions := st.assertions ++
      [.lt (.var (b ++ "_term")) (.var (a ++ "_term"))] } := by
  unfold add_constraint at h
  by_cases hb : b ∈ st.names
  · by_cases ha : a ∈ st.names
    · rw [to_const_course_mem hb, to_const_course_mem ha] at h
      have h' : Except.ok { st with assertions := st.assertions ++
          [assertionOf Op.LT (.var (b ++ "_term")) (.var (a ++ "_term"))] } =
          Except.ok st' := h
      exact (Except.ok.inj h').symm
    · rw [to_const_course_mem hb, to_const_course_not_mem ha] at h
      exact absurd h (by simp [Bind.bind, Except.bind, Functor.map, Except.map])
  · rw [to_const_course_not_mem hb] at h
    exact absurd h (by simp [Bind.bind, Except.bind, Functor.map, Except.map])

theorem constraints_foldlM_ok {cs : List (String × Op × Operand)} :
    ∀ {st st' : SchedSt},
      cs.foldlM (fun st c => add_constraint st (.course c.1) c.2.1 c.2.2) st =
        .ok st' →
      StExtends st st' ∧ StFrame st st' := by
  induction cs with
  | nil =>
    intro st st' h
    rw [List.foldlM_nil] at h
    have h' : Except.ok st = Except.ok st' := h
    obtain rfl := Except.ok.inj h'
    exact ⟨stExtends_refl st, stFrame_refl st⟩
  | cons c rest ih =>
    intro st st' h
    rw [List.foldlM_cons] at h
    cases hc : add_constraint st (.course c.1) c.2.1 c.2.2 with
    | error e =>
      rw [hc] at h
      exact absurd h (by simp [Bind.bind, Except.bind])
    | ok st1 =>
      rw [hc] at h
      have h2 : rest.foldlM
          (fun st c => add_constraint st (.course c.1) c.2.1 c.2.2) st1 =
          .ok st' := h
      obtain ⟨he, hf⟩ := add_constraint_extends_frame hc
      obtain ⟨he2, hf2⟩ := ih h2
      exact ⟨stExtends_trans he he2, stFrame_trans hf hf2⟩

theorem prereqs_foldlM_ok {prs : List (String × String)} :
    ∀ {st st' : SchedSt},
      prs.foldlM
        (fun (s : SchedSt) (pr : String × String) =>
          add_constraint s (.course pr.1) Op.LT (.course pr.2)) st = .ok st' →
      StExtends st st' ∧ StFrame st st' ∧
        ∀ pr ∈ prs,
          Assertion.lt (.var (pr.1 ++ "_term")) (.var (pr.2 ++ "_term")) ∈
            st'.assertions := by
  induction prs with
  | nil =>
    intro st st' h
    rw [List.foldlM_nil] at h
    have h' : Except.ok st = Except.ok st' := h
    obtain rfl := Except.ok.inj h'
    exact ⟨stExtends_refl st, stFrame_refl st, by simp⟩
  | cons pr rest ih =>
    intro st st' h
    rw [List.foldlM_cons] at h
    cases hc : add_constraint st (.course pr.1) Op.LT (.course pr.2) with
    | error e =>
      rw [hc] at h
      exact absurd h (by simp [Bind.bind, Except.bind])
    | ok st1 =>
      rw [hc] at h
      have h2 : rest.foldlM
          (fun (s : SchedSt) (pr : String × String) =>
            add_constraint s (.course pr.1) Op.LT (.course pr.2)) st1 =
          .ok st' := h
      have hshape := add_constraint_course_lt hc
      obtain ⟨he2, hf2, hmem2⟩ := ih h2
      have he1 : StExtends st st1 := by
        rw [hshape]
        exact ⟨_, rfl⟩
      have hfr1 : StFrame st st1 := by
        rw [hshape]
        exact ⟨rfl, rfl, rfl, rfl⟩
      refine ⟨stExtends_trans he1 he2, stFrame_trans hfr1 hf2, ?_⟩
      intro q hq
      rcases List.mem_cons.1 hq with rfl | hq'
      · refine he2.mem ?_
        rw [hshape]
        simp
      · exact hmem2 q hq'

theorem makeCourseData_foldl (past : List String) (tp : Int) :
    ∀ (cl : List (String × Int)) (st : SchedSt),
      StExtends st
        (cl.foldl
          (fun st p =>
            makeCourseData st p.1 p.2 (if p.1 ∈ past then 0 else tp)) st) ∧
      (cl.foldl
        (fun st p =>
          makeCourseData st p.1 p.2 (if p.1 ∈ past then 0 else tp)) st).prereqs =
        st.prereqs ∧
      (cl.foldl
        (fun st p =>
          makeCourseData st p.1 p.2 (if p.1 ∈ past then 0 else tp)) st).term_count =
        st.term_count ∧
      (cl.foldl
        (fun st p =>
          makeCourseData st p.1 p.2 (if p.1 ∈ past then 0 else tp)) st).terms_past =
        st.terms_past ∧
      ∀ p ∈ cl,
        Assertion.gt (.var (p.1 ++ "_term"))
            (.int (if p.1 ∈ past then 0 else tp)) ∈
          (cl.foldl
            (fun st p =>
              makeCourseData st p.1 p.2 (if p.1 ∈ past then 0 else tp)) st).assertions ∧
        Assertion.le (.var (p.1 ++ "_term")) (.int st.term_count) ∈
          (cl.foldl
            (fun st p =>
              makeCourseData st p.1 p.2 (if p.1 ∈ past then 0 else tp)) st).assertions := by
  intro cl
  induction cl with
  | nil =>
    intro st
    exact ⟨stExtends_refl st, rfl, rfl, rfl, by simp⟩
  | cons p rest ih =>
    intro st
    rw [List.foldl_cons]
    obtain ⟨he, hpre, htc, htp, hmem⟩ :=
      ih (makeCourseData st p.1 p.2 (if p.1 ∈ past then 0 else tp))
    have hext1 : StExtends st
        (makeCourseData st p.1 p.2 (if p.1 ∈ past then 0 else tp)) :=
      ⟨_, rfl⟩
    refine ⟨stExtends_trans hext1 he, hpre, htc, htp, ?_⟩
    intro q hq
    rcases List.mem_cons.1 hq with rfl | hq'
    · constructor
      · refine he.mem ?_
        show _ ∈ (makeCourseData st q.1 q.2 _).assertions
        unfold makeCourseData
        simp
      · refine he.mem ?_
        show _ ∈ (makeCourseData st q.1 q.2 _).assertions
        unfold makeCourseData
        simp
    · have := hmem q hq'
      rwa [show (makeCourseData st p.1 p.2
        (if p.1 ∈ past then 0 else tp)).term_count = st.term_count from rfl] at this

theorem initTotals_inner (l : List ℕ) :
    ∀ acc : List String × SchedSt,
      (l.foldl
        (fun (acc : List String × SchedSt) (index : ℕ) =>
          let r := makeTermTotalVariable acc.2 ((index : Int) + 1)
          (acc.1 ++ [r.1], r.2)) acc).2.assertions = acc.2.assertions ∧
      (l.foldl
        (fun (acc : List String × SchedSt) (index : ℕ) =>
          let r := makeTermTotalVariable acc.2 ((index : Int) + 1)
          (acc.1 ++ [r.1], r.2)) acc).2.names = acc.2.names ∧
      (l.foldl
        (fun (acc : List String × SchedSt) (index : ℕ) =>
          let r := makeTermTotalVariable acc.2 ((index : Int) + 1)
          (acc.1 ++ [r.1], r.2)) acc).2.prereqs = acc.2.prereqs ∧
      (l.foldl
        (fun (acc : List String × SchedSt) (index : ℕ) =>
          let r := makeTermTotalVariable acc.2 ((index : Int) + 1)
          (acc.1 ++ [r.1], r.2)) acc).2.term_count = acc.2.term_count ∧
      (l.foldl
        (fun (acc : List String × SchedSt) (index : ℕ) =>
          let r := makeTermTotalVariable acc.2 ((index : Int) + 1)
          (acc.1 ++ [r.1], r.2)) acc).2.terms_past = acc.2.terms_past := by
  induction l with
  | nil => intro acc; exact ⟨rfl, rfl, rfl, rfl, rfl⟩
  | cons i rest ih =>
    intro acc
    rw [List.foldl_cons]
    exact ih _

theorem initTotals_state (st : SchedSt) :
    (initTotals st).2.assertions = st.assertions ∧
    (initTotals st).2.names = st.names ∧
    (initTotals st).2.prereqs = st.prereqs ∧
    (initTotals st).2.term_count = st.term_count ∧
    (initTotals st).2.terms_past = st.terms_past := by
  unfold initTotals
  exact initTotals_inner _ _

theorem coursePass_inner (name : String) (totals : List String) :
    ∀ acc : List String × SchedSt × Int,
      StExtends acc.2.1
        ((totals.foldl
          (fun (a : List String × SchedSt × Int) prev =>
            let next := makeTermTotalVariable a.2.1 a.2.2
            let st2 :=
              { next.2 with
                assertions := next.2.assertions ++
                  [.implies (.eq (.var (name ++ "_term")) (.int a.2.2))
                    (.eq (.var next.1)
                      (.add (.var prev) (.var (name ++ "_credits")))),
                   .implies (.ne (.var (name ++ "_term")) (.int a.2.2))
                    (.eq (.var next.1) (.var prev))] }
            (a.1 ++ [next.1], st2, a.2.2 + 1)) acc).2.1) ∧
      ((totals.foldl
        (fun (a : List String × SchedSt × Int) prev =>
          let next := makeTermTotalVariable a.2.1 a.2.2
          let st2 :=
            { next.2 with
              assertions := next.2.assertions ++
                [.implies (.eq (.var (name ++ "_term")) (.int a.2.2))
                  (.eq (.var next.1)
                    (.add (.var prev) (.var (name ++ "_credits")))),
                 .implies (.ne (.var (name ++ "_term")) (.int a.2.2))
                  (.eq (.var next.1) (.var prev))] }
          (a.1 ++ [next.1], st2, a.2.2 + 1)) acc).2.1).names = acc.2.1.names ∧
      ((totals.foldl
        (fun (a : List String × SchedSt × Int) prev =>
          let next := makeTermTotalVariable a.2.1 a.2.2
          let st2 :=
            { next.2 with
              assertions := next.2.assertions ++
                [.implies (.eq (.var (name ++ "_term")) (.int a.2.2))
                  (.eq (.var next.1)
                    (.add (.var prev) (.var (name ++ "_credits")))),
                 .implies (.ne (.var (name ++ "_term")) (.int a.2.2))
                  (.eq (.var next.1) (.var prev))] }
          (a.1 ++ [next.1], st2, a.2.2 + 1)) acc).2.1).prereqs = acc.2.1.prereqs := by
  induction totals with
  | nil => intro acc; exact ⟨stExtends_refl _, rfl, rfl⟩
  | cons prev rest ih =>
    intro acc
    rw [List.foldl_cons]
    obtain ⟨he, hn, hp⟩ := ih _
    refine ⟨stExtends_trans ⟨_, rfl⟩ he, hn, hp⟩

theorem coursePass_state (name : String) (totals : List String) (st : SchedSt) :
    StExtends st (coursePass name totals st).2 ∧
    (coursePass name totals st).2.names = st.names ∧
    (coursePass name totals st).2.prereqs = st.prereqs := by
  unfold coursePass
  exact coursePass_inner name totals ([], st, 1)

theorem namesFold_state (names : List String) :
    ∀ acc : List String × SchedSt,
      StExtends acc.2
        ((names.foldl (fun a name => coursePass name a.1 a.2) acc).2) ∧
      ((names.foldl (fun a name => coursePass name a.1 a.2) acc).2).prereqs =
        acc.2.prereqs := by
  induction names with
  | nil => intro acc; exact ⟨stExtends_refl _, rfl⟩
  | cons n rest ih =>
    intro acc
    rw [List.foldl_cons]
    obtain ⟨he2, hp2⟩ := ih (coursePass n acc.1 acc.2)
    obtain ⟨he1, -, hp1⟩ := coursePass_state n acc.1 acc.2
    exact ⟨stExtends_trans he1 he2, hp2.trans hp1⟩

theorem finalTotalBounds_inner (totals : List String) :
    ∀ a : SchedSt × Int,
      StExtends a.1
        ((totals.foldl
          (fun (a : SchedSt × Int) total =>
            (if a.2 < a.1.terms_past then a.1
             else
              { a.1 with
                assertions := a.1.assertions ++
                  [.le (.var total) (.var "max_credits")] },
             a.2 + 1)) a).1) := by
  induction totals with
  | nil => intro a; exact stExtends_refl _
  | cons total rest ih =>
    intro a
    rw [List.foldl_cons]
    refine stExtends_trans ?_ (ih _)
    by_cases hlt : a.2 < a.1.terms_past
    · rw [if_pos hlt]
      exact stExtends_refl _
    · rw [if_neg hlt]
      exact ⟨_, rfl⟩

theorem finalTotalBounds_extends (totals : List String) (st : SchedSt) :
    StExtends st (finalTotalBounds totals st) := by
  unfold finalTotalBounds
  exact finalTotalBounds_inner totals (st, 0)

theorem generateTail_ok {st2 st' : SchedSt}
    (h : generateTail st2 = .ok st') :
    StExtends st2 st' ∧
      ∀ pr ∈ st2.prereqs,
        Assertion.lt (.var (pr.1 ++ "_term")) (.var (pr.2 ++ "_term")) ∈
          st'.assertions := by
  unfold generateTail at h
  cases hf : st2.prereqs.foldlM
      (fun (s : SchedSt) (pr : String × String) =>
        add_constraint s (.course pr.1) Op.LT (.course pr.2)) st2 with
  | error e =>
    rw [hf] at h
    exact absurd h (by simp [Bind.bind, Except.bind])
  | ok st3 =>
    rw [hf] at h
    obtain ⟨he3, -, hmem3⟩ := prereqs_foldlM_ok hf
    set r0 : List String × SchedSt := initTotals st3 with hr0
    set st5 : SchedSt :=
      { r0.2 with assertions := r0.2.assertions ++
          r0.1.map fun t => Assertion.eq (.var t) (.int 0) } with hst5
    set r : List String × SchedSt :=
      st5.names.foldl (fun a name => coursePass name a.1 a.2) (r0.1, st5) with hr
    have h2 : Except.ok (finalTotalBounds r.1 r.2) = Except.ok st' := h
    obtain rfl := Except.ok.inj h2
    have hi := initTotals_state st3
    have he4 : StExtends st3 r0.2 := ⟨[], by rw [hi.1]; simp⟩
    have he5 : StExtends r0.2 st5 := ⟨_, rfl⟩
    obtain ⟨he6, -⟩ := namesFold_state st5.names (r0.1, st5)
    have he7 := finalTotalBounds_extends r.1 r.2
    have hall : StExtends st3 (finalTotalBounds r.1 r.2) :=
      stExtends_trans (stExtends_trans (stExtends_trans he4 he5) he6) he7
    refine ⟨stExtends_trans he3 hall, ?_⟩
    intro pr hpr
    exact hall.mem (hmem3 pr hpr)

theorem generateSchedule_ok {st st' : SchedSt}
    (h : generateSchedule st = .ok st') :
    StExtends st st' ∧
      ∀ pr ∈ st.prereqs,
        Assertion.lt (.var (pr.1 ++ "_term")) (.var (pr.2 ++ "_term")) ∈
          st'.assertions := by
  unfold generateSchedule at h
  by_cases hz : st.term_count - st.terms_past = 0
  · rw [if_pos hz] at h
    exact absurd h (by simp)
  · rw [if_neg hz] at h
    obtain ⟨he, hmem⟩ := generateTail_ok h
    refine ⟨stExtends_trans ?_ he, fun pr hpr => hmem pr hpr⟩
    exact ⟨[Assertion.le (.var "max_credits") (.int st.term_credit_max),
      Assertion.ge (.var "max_credits")
        (.int (pyCeilDiv (st.total_required - st.credits_past)
          (st.term_count - st.terms_past)))], by simp⟩

theorem initScheduler_ok {courses : List (String × Int)}
    {prereqs : List (String × String)} {tc tcm tp : Int}
    {cons : Option (List (String × Op × Operand))} {st' : SchedSt}
    (h : initScheduler courses prereqs tc tcm tp cons = .ok st') :
    st'.prereqs = prereqs ∧ st'.term_count = tc ∧ st'.terms_past = tp ∧
      ∀ p ∈ courses,
        Assertion.gt (.var (p.1 ++ "_term"))
            (.int (if p.1 ∈ pastCourses (cons.getD []) tp then 0 else tp)) ∈
          st'.assertions ∧
        Assertion.le (.var (p.1 ++ "_term")) (.int tc) ∈ st'.assertions := by
  unfold initScheduler at h
  set st0 : SchedSt :=
    { assertions := []
      names := []
      prereqs := prereqs
      term_count := tc
      term_credit_max := tcm
      terms_past := tp
      total_required := ((sortCourses courses).map Prod.snd).sum
      credits_past := 0
      counter := 0 } with hst0
  have h' : (cons.getD []).foldlM
      (fun st c => add_constraint st (.course c.1) c.2.1 c.2.2)
      ((sortCourses courses).foldl
        (fun st p => makeCourseData st p.1 p.2
          (if p.1 ∈ pastCourses (cons.getD []) tp then 0 else tp)) st0) =
      .ok st' := h
  obtain ⟨hext, hn, hp, htc, htp⟩ :=
    And.intro (constraints_foldlM_ok h').1 (constraints_foldlM_ok h').2
  obtain ⟨-, hpre1, htc1, htp1, hmem1⟩ :=
    makeCourseData_foldl (pastCourses (cons.getD []) tp) tp
      (sortCourses courses) st0
  refine ⟨?_, ?_, ?_, ?_⟩
  · rw [hp, hpre1]
  · rw [htc, htc1]
  · rw [htp, htp1]
  · intro p hp'
    have hmemS : p ∈ sortCourses courses := mem_sortCourses.2 hp'
    obtain ⟨hg, hl⟩ := hmem1 p hmemS
    exact ⟨hext.mem hg, hext.mem hl⟩

theorem buildModel_ok {courses : List (String × Int)}
    {prereqs : List (String × String)} {tc tcm tp : Int}
    {cons : Option (List (String × Op × Operand))} {st' : SchedSt}
    (h : buildModel courses prereqs tc tcm tp cons = .ok st') :
    (∀ pr ∈ prereqs,
      Assertion.lt (.var (pr.1 ++ "_term")) (.var (pr.2 ++ "_term")) ∈
        st'.assertions) ∧
    ∀ p ∈ courses,
      Assertion.gt (.var (p.1 ++ "_term"))
          (.int (if p.1 ∈ pastCourses (cons.getD []) tp then 0 else tp)) ∈
        st'.assertions ∧
      Assertion.le (.var (p.1 ++ "_term")) (.int tc) ∈ st'.assertions := by
  unfold buildModel at h
  cases hi : initScheduler courses prereqs tc tcm tp cons with
  | error e =>
    rw [hi] at h
    exact absurd h (by simp [Except.bind])
  | ok sti =>
    rw [hi] at h
    have h2 : generateSchedule sti = .ok st' := h
    obtain ⟨hprf, htcf, htpf, hmemi⟩ := initScheduler_ok hi
    obtain ⟨hext, hmemp⟩ := generateSchedule_ok h2
    constructor
    · intro pr hpr
      exact hmemp pr (hprf ▸ hpr)
    · intro p hp'
      obtain ⟨hg, hl⟩ := hmemi p hp'
      exact ⟨hext.mem hg, hext.mem hl⟩

/-- C4: for every prerequisite edge `(pre, post)` given to the Scheduler,
the generated model asserts `term(pre) < term(post)`; hence every schedule
read back from a satisfying solver model assigns `pre` a strictly earlier
term than `post`.  (A schedule is only ever produced from an assignment
satisfying every generated assertion; a failed build produces no schedule,
and `modelAssertions` makes that case unsatisfiable rather than vacuous.) -/
theorem C4_prereq_ordering (courses : List (String × Int))
    (prereqs : List (String × String)) (tc tcm tp : Int)
    (cons : Option (List (String × Op × Operand)))
    (b a : String) (σ : String → Int)
    (hmem : (b, a) ∈ prereqs)
    (hsat : ∀ x ∈ modelAssertions (buildModel courses prereqs tc tcm tp cons),
      x.holds σ) :
    σ (b ++ "_term") < σ (a ++ "_term") := by
  cases h : buildModel courses prereqs tc tcm tp cons with
  | error e =>
    have hmark : (Assertion.lt (.int 0) (.int 0)) ∈
        modelAssertions (buildModel courses prereqs tc tcm tp cons) := by
      rw [h]
      simp [modelAssertions]
    have := hsat _ hmark
    simp [Assertion.holds, Z3Term.eval] at this
  | ok st =>
    obtain ⟨hpr, -⟩ := buildModel_ok h
    have hm : Assertion.lt (.var (b ++ "_term")) (.var (a ++ "_term")) ∈
        modelAssertions (buildModel courses prereqs tc tcm tp cons) := by
      rw [h]
      exact hpr (b, a) hmem
    have := hsat _ hm
    simpa [Assertion.holds, Z3Term.eval] using this

/-- Concrete course list for the C4 witness. -/
def c4Courses : List (String × Int) := [("a", 3), ("b", 3)]

/-- Concrete prerequisite list for the C4 witness. -/
def c4Prereqs : List (String × String) := [("a", "b")]

/-- A concrete satisfying assignment for the C4 witness model (2 terms,
ceiling 3). -/
def c4Sigma : String → Int := fun s =>
  if s = "a_term" then 1
  else if s = "b_term" then 2
  else if s = "a_credits" then 3
  else if s = "b_credits" then 3
  else if s = "max_credits" then 3
  else if s = "total_1_2" then 3
  else if s = "total_1_4" then 3
  else if s = "total_2_5" then 3
  else 0

/-- Witness for C4 at a concrete input: with prerequisite `a → b`, any
satisfying assignment puts `a` strictly before `b`. -/
theorem C4_prereq_ordering_witness :
    c4Sigma ("a" ++ "_term") < c4Sigma ("b" ++ "_term") :=
  C4_prereq_ordering c4Courses c4Prereqs 2 3 0 none "a" "b" c4Sigma
    (by decide) (by decide)

/-- C2 (amended): each course's term variable is constrained to the
half-open window `(term_floor, term_count]`, where `term_floor` is
`terms_past` for an ordinary course and 0 for a course marked
already-completed by a constraint whose integer right operand is at most
`terms_past` — the OPPOSITE assignment to the one claimed. -/
theorem C2_term_window (courses : List (String × Int))
    (prereqs : List (String × String)) (tc tcm tp : Int)
    (cons : Option (List (String × Op × Operand)))
    (name : String) (credits : Int)
    (hmem : (name, credits) ∈ courses)
    (hok : (buildModel courses prereqs tc tcm tp cons).isOk = true) :
    Assertion.gt (.var (name ++ "_term"))
        (.int (if name ∈ pastCourses (cons.getD []) tp then 0 else tp)) ∈
      modelAssertions (buildModel courses prereqs tc tcm tp cons) ∧
    Assertion.le (.var (name ++ "_term")) (.int tc) ∈
      modelAssertions (buildModel courses prereqs tc tcm tp cons) ∧
    ∀ σ : String → Int,
      (∀ x ∈ modelAssertions (buildModel courses prereqs tc tcm tp cons),
        x.holds σ) →
      (if name ∈ pastCourses (cons.getD []) tp then 0 else tp) <
          σ (name ++ "_term") ∧
        σ (name ++ "_term") ≤ tc := by
  cases h : buildModel courses prereqs tc tcm tp cons with
  | error e =>
    rw [h] at hok
    exact absurd hok (by simp [Except.isOk, Except.toBool])
  | ok st =>
    obtain ⟨-, hcourse⟩ := buildModel_ok h
    obtain ⟨hg, hl⟩ := hcourse (name, credits) hmem
    refine ⟨hg, hl, ?_⟩
    intro σ hσ
    have h1 := hσ _ hg
    have h2 := hσ _ hl
    constructor
    · simpa [Assertion.holds, Z3Term.eval] using h1
    · simpa [Assertion.holds, Z3Term.eval] using h2

/-- Concrete course list for the C2 theorems. -/
def c2Courses : List (String × Int) := [("a", 3), ("b", 3)]

/-- Concrete constraint list marking course `a` completed in past term 1
(`terms_past = 2`). -/
def c2Cons : List (String × Op × Operand) := [("a", Op.EQ, .num 1)]

/-- A concrete assignment satisfying the whole generated model while
placing past course `a` in term 1. -/
def c2Sigma : String → Int := fun s =>
  if s = "a_term" then 1
  else if s = "b_term" then 3
  else if s = "a_credits" then 3
  else if s = "b_credits" then 3
  else if s = "max_credits" then 18
  else if s = "total_1_8" then 3
  else if s = "total_1_16" then 3
  else if s = "total_3_18" then 3
  else 0

/-- Counterexample to C2 as stated: course `a` is explicitly marked
already-completed (its constraint's integer right operand 1 is at most
`terms_past = 2`), so the claim says its term variable is constrained to
`(2, 8]`; but the assignment `c2Sigma` satisfies every generated assertion
and still places `a` in term 1 — the code gives past-marked courses the
floor 0, not `terms_past`. -/
theorem C2_term_window_counterexample :
    "a" ∈ pastCourses c2Cons 2 ∧
    (∀ x ∈ modelAssertions (buildModel c2Courses [] 8 18 2 (some c2Cons)),
      x.holds c2Sigma) ∧
    c2Sigma ("a" ++ "_term") = 1 ∧ ¬ ((2 : Int) < c2Sigma ("a" ++ "_term")) := by
  exact ⟨by decide, by decide, by decide, by decide⟩

/-- Witness for the amended C2 at a concrete input: the ordinary course `b`
gets the window `(terms_past, term_count] = (2, 8]`. -/
theorem C2_term_window_witness :
    Assertion.gt (.var ("b" ++ "_term"))
        (.int (if "b" ∈ pastCourses ((some c2Cons).getD []) 2 then 0 else 2)) ∈
      modelAssertions (buildModel c2Courses [] 8 18 2 (some c2Cons)) ∧
    Assertion.le (.var ("b" ++ "_term")) (.int 8) ∈
      modelAssertions (buildModel c2Courses [] 8 18 2 (some c2Cons)) ∧
    ∀ σ : String → Int,
      (∀ x ∈ modelAssertions (buildModel c2Courses [] 8 18 2 (some c2Cons)),
        x.holds σ) →
      (if "b" ∈ pastCourses ((some c2Cons).getD []) 2 then 0 else 2) <
          σ ("b" ++ "_term") ∧
        σ ("b" ++ "_term") ≤ 8 :=
  C2_term_window c2Courses [] 8 18 2 (some c2Cons) "b" 3 (by decide) (by decide)

end Curd
